import Mathlib

/-!
Verification of the schema-driven SNMP walker (`snmpmagic` package).

The Go sources are shallowly embedded:

* `snmpmagic/oid.go`    → `OID`, `ParseOID`, `OID.String`, `OID.Copy`,
                          `OID.LongestCommonPrefixLength`
* OID trie source file  → `OIDTree`, `OIDTree.Insert` (as `insertOpt`,
  `Option`-valued: `none` models a Go `panic`), `OIDTree.FindNext`,
  `OIDTree.PrefixPaths`, `OIDTree.prepare` / `BuildOIDTree`
* PDU dispatch file     → `deserializePDUToValue`, `getOrCreateMapElement`
* `snmpmagic/base.go`   → `SNMPMagic.Query` / `SNMPMagic.HandlePDU`

Go structs are rebuilt functionally; Go maps become association lists
(Go map iteration order is unspecified, so set-level statements are made);
the trie-node field `prefix` is rendered `pre`.
-/

set_option maxHeartbeats 1000000

namespace Snmpmagic

/-- Model of `type OID []uint`: arcs are unsigned integers (values bounded
by the 64-bit parse in `ParseOID`, never combined arithmetically after). -/
abbrev OID := List Nat

/-- Model of `strconv.ParseUint(part, 10, 64)`: a nonempty all-digit string
whose value fits in 64 bits (base 10, no sign, no separators accepted). -/
def parseUint64 (s : String) : Option Nat :=
  if s.length = 0 then none
  else if s.toList.all Char.isDigit then
    let v := s.toList.foldl (fun acc c => acc * 10 + (c.toNat - 48)) 0
    if v < 2 ^ 64 then some v else none
  else none

/-- Split a character list at every occurrence of a separator character,
keeping empty segments (the behaviour of Go's `strings.Split` for a
one-character separator). -/
def goSplitAux (sep : Char) : List Char → List Char → List String
  | [], acc => [String.mk acc.reverse]
  | c :: rest, acc =>
    if c = sep then String.mk acc.reverse :: goSplitAux sep rest []
    else goSplitAux sep rest (c :: acc)

/-- Go's `strings.Split` with a one-character separator. -/
def goSplit (sep : Char) (s : String) : List String :=
  goSplitAux sep s.toList []

/-- The element loop of `ParseOID`: parse every component, stopping at
the first malformed one. -/
def parseArcs : List String → Option (List Nat)
  | [] => some []
  | p :: rest =>
    match parseUint64 p, parseArcs rest with
    | some v, some l => some (v :: l)
    | _, _ => none

/-- Model of `ParseOID` from `oid.go`: split on `.`, drop leading empty
components, parse each remaining component as an unsigned 64-bit integer;
`none` models the returned parse error. -/
def ParseOID (str : String) : Option OID :=
  let parts := (goSplit '.' str).dropWhile (fun p => p = "")
  parseArcs parts

/-- Model of `OID.String` from `oid.go`: dot-joined decimal arcs, no
leading dot. -/
def OID.String (self : OID) : String :=
  String.intercalate "." (self.map Nat.repr)

/-- Model of `OID.Copy` from `oid.go`: a defensive copy; in the pure
embedding a value copy is the value itself. -/
def OID.Copy (self : OID) : OID := self

/-- Model of `OID.LongestCommonPrefixLength` from `oid.go`. -/
def OID.LongestCommonPrefixLength (self other : OID) : Nat :=
  match self, other with
  | a :: as_, b :: bs => if a = b then (OID.LongestCommonPrefixLength as_ bs) + 1 else 0
  | _, _ => 0

/-- Model of the `OIDNodeType` enumeration from the trie source. -/
inductive OIDNodeType where
  | UninitializedNode
  | SimpleNode
  | SuffixCatcherNode
  | LeafNode
deriving DecidableEq, Repr

export OIDNodeType (UninitializedNode SimpleNode SuffixCatcherNode LeafNode)

/-- Model of the `OIDTree` struct: `pre` renders the Go field `prefix`
(arcs consumed beyond the parent), `children` renders the Go
`map[uint]*OIDTree` as an association list, `fieldIndex` is `-1` when
absent. -/
inductive OIDTree where
  | mk : List Nat → List (Nat × OIDTree) → Int → String → OIDNodeType → OIDTree
deriving Repr

namespace OIDTree

def pre : OIDTree → List Nat
  | .mk p _ _ _ _ => p

def children : OIDTree → List (Nat × OIDTree)
  | .mk _ cs _ _ _ => cs

def fieldIndex : OIDTree → Int
  | .mk _ _ i _ _ => i

def fieldQualifiedName : OIDTree → String
  | .mk _ _ _ n _ => n

def nodeType : OIDTree → OIDNodeType
  | .mk _ _ _ _ t => t

/-- Model of `NewOIDTree()`. -/
def NewOIDTree : OIDTree := .mk [] [] (-1) "" UninitializedNode

/-- Model of `IsLeaf()`. -/
def IsLeaf (self : OIDTree) : Bool := self.nodeType = LeafNode

/-- Model of `IsSuffixCatching()`. -/
def IsSuffixCatching (self : OIDTree) : Bool := self.nodeType = SuffixCatcherNode

/-- Lookup in the `children` Go map. -/
def findChild : List (Nat × OIDTree) → Nat → Option OIDTree
  | [], _ => none
  | (k', c) :: rest, k => if k' = k then some c else findChild rest k

/-- In-place update of the `children` Go map at a key. -/
def setChild : List (Nat × OIDTree) → Nat → OIDTree → List (Nat × OIDTree)
  | [], k, c => [(k, c)]
  | (k', c') :: rest, k, c =>
      if k' = k then (k, c) :: rest else (k', c') :: setChild rest k c

theorem findChild_mem {cs : List (Nat × OIDTree)} {k : Nat} {c : OIDTree}
    (h : findChild cs k = some c) : (k, c) ∈ cs := by
  induction cs with
  | nil => simp [findChild] at h
  | cons hd tl ih =>
    obtain ⟨k', c'⟩ := hd
    by_cases hk : k' = k
    · subst hk
      simp [findChild] at h
      subst h
      exact List.mem_cons_self _ _
    · simp [findChild, hk] at h
      exact List.mem_cons_of_mem _ (ih h)

theorem sizeOf_findChild {cs : List (Nat × OIDTree)} {k : Nat} {c : OIDTree}
    (h : findChild cs k = some c) : sizeOf c < sizeOf cs := by
  have hm := findChild_mem h
  have := List.sizeOf_lt_of_mem hm
  simp at this
  omega

/-- Model of `OIDTree.createOrUpdateChild` from the trie source, with the
recursive `child.Insert` call abstracted as `ins` (`none` models a
panic: `path[0]` on an empty slice, or the explicit
`panic("cannot insert node under a leaf")`). -/
def createOrUpdateChildGo (ins : OIDTree → List Nat → Option OIDTree)
    (t : OIDTree) (path : List Nat) (i : Int) (nm : String)
    (k : OIDNodeType) : Option OIDTree :=
  match t, path with
  | _, [] => none
  | .mk pr cs fi fn nt, key :: childPath =>
    match findChild cs key with
    | some child =>
      match ins child childPath with
      | some child' => some (.mk pr (setChild cs key child') fi fn nt)
      | none => none
    | none =>
      if nt = LeafNode then none
      else some (.mk pr (cs ++ [(key, .mk childPath [] i nm k)]) fi fn nt)

/-- Model of `OIDTree.Insert` from the trie source, with explicit fuel:
one unit per recursive `Insert` call (a path of length `n` needs at most
`n + 1`).  The result `none` models a Go panic: either the leaf panic in
`createOrUpdateChild`, or the out-of-range index `self.prefix[-1]` taken
when `commonLen` is decremented from zero. -/
def insertGo (fuel : Nat) (t : OIDTree) (path : List Nat) (i : Int)
    (nm : String) (k : OIDNodeType) : Option OIDTree :=
  match fuel with
  | 0 => none   -- unreachable: the wrapper supplies sufficient fuel
  | fuel + 1 =>
    match t with
    | .mk pr cs fi fn nt =>
      if nt = UninitializedNode then
        some (.mk path cs i nm k)
      else
        let commonLen := OID.LongestCommonPrefixLength pr path
        if commonLen = pr.length ∧ commonLen < path.length then
          createOrUpdateChildGo (fun c p => insertGo fuel c p i nm k)
            (.mk pr cs fi fn nt) (path.drop commonLen) i nm k
        else
          -- Go: `if commonLen == len(path) { commonLen -= 1 }`; decrementing
          -- 0 makes the index `self.prefix[commonLen]` negative: panic.
          if commonLen = path.length ∧ commonLen = 0 then none
          else
            let c := if commonLen = path.length then commonLen - 1 else commonLen
            let moved : OIDTree := .mk (pr.drop (c + 1)) cs fi fn nt
            let split : OIDTree :=
              .mk (pr.take c) [(pr.getD c 0, moved)] (-1) "" SimpleNode
            createOrUpdateChildGo (fun c' p => insertGo fuel c' p i nm k)
              split (path.drop c) i nm k

/-- Model of `OIDTree.Insert` (`none` models a Go panic). -/
def insertOpt (t : OIDTree) (path : List Nat) (i : Int) (nm : String)
    (k : OIDNodeType) : Option OIDTree :=
  insertGo (path.length + 1) t path i nm k

/-- Model of `OIDTree.FindNext` from the trie source. -/
def FindNext (self : OIDTree) (path : List Nat) : Option OIDTree × List Nat :=
  match self with
  | .mk pr cs _ _ _ =>
    let prefixLen := OID.LongestCommonPrefixLength pr path
    if prefixLen ≠ pr.length then (none, path)
    else
      match path.drop prefixLen with
      | [] => (some self, [])
      | key :: rest =>
        match findChild cs key with
        | some child => (some child, rest)
        | none => (none, path)

/-- Model of `OIDTree.PrefixPaths` from the trie source: a leaf contributes
nothing, a suffix-catcher contributes its own `pre`, any other node
contributes `pre ++ [key] ++ p` for every path `p` of every child. -/
def PrefixPaths (self : OIDTree) : List (List Nat) :=
  match self with
  | .mk pr cs _ _ nt =>
    if nt = LeafNode then []
    else if nt = SuffixCatcherNode then [pr]
    else
      cs.attach.flatMap
        (fun kc => (PrefixPaths kc.1.2).map (fun p => pr ++ [kc.1.1] ++ p))
decreasing_by
  obtain ⟨⟨key, child⟩, hmem⟩ := kc
  simp_wf
  have := List.sizeOf_lt_of_mem hmem
  simp at this
  omega

/-- Iterated `FindNext` from the root, as performed by the dispatch loop:
stops successfully exactly when `FindNext` answers "the path ends at this
node" (returning the node itself with the whole remainder consumed). -/
def walkFind (self : OIDTree) (path : List Nat) : Option OIDTree :=
  match self with
  | .mk pr cs fi fn nt =>
    let prefixLen := OID.LongestCommonPrefixLength pr path
    if prefixLen ≠ pr.length then none
    else
      match path.drop prefixLen with
      | [] => some (.mk pr cs fi fn nt)
      | key :: rest =>
        match h : findChild cs key with
        | some child => walkFind child rest
        | none => none
decreasing_by
  simp_wf
  have := sizeOf_findChild h
  omega

/-- A schema entry, as produced by the introspector and consumed by
`Insert`: path, locator (field index and qualified name) and node kind. -/
abbrev Entry := List Nat × Int × String × OIDNodeType

/-- Folds `Insert` over a list of schema entries, starting from a given
tree; `none` as soon as one insertion panics. -/
def insertAllOpt (t : OIDTree) (es : List Entry) : Option OIDTree :=
  match es with
  | [] => some t
  | (p, i, nm, k) :: rest =>
    match insertOpt t p i nm k with
    | some t' => insertAllOpt t' rest
    | none => none

end OIDTree

/-! ### PDU value model and value coercion (dispatch source file) -/

/-- Tags of `gosnmp` PDUs that the coercion layer distinguishes. -/
inductive SnmpTag where
  | Integer
  | Counter32
  | Counter64
  | Gauge32
  | TimeTicks
  | Uinteger32
  | OctetString
  | ObjectIdentifier
  | OtherTag
deriving DecidableEq, Repr

/-- Decoded payload of a PDU (`pdu.Value interface{}`): the dynamic type
carried by the transport.  A failed Go type assertion on it panics. -/
inductive PduVal where
  | vInt (n : Int)
  | vUint (n : Nat)
  | vBytes (bs : List Nat)
  | vStr (s : String)
  | vOther
deriving DecidableEq, Repr

/-- Reflection view of a target value (`reflect.Value`), restricted to the
kinds the walker meets: scalars, `[]byte`, `snmpmagic.OID` (a slice whose
element type is `uint`, not `uint8`), structs, `map[uint]*T` and
`map[string]*T`, and non-nil pointers.  For a map, `elemIsPtr` records
whether the declared element type is a pointer and `rowZero` the zero
value of the pointee; `entries = none` is a nil map.  Values the walker
touches are reached from the pointer destination, hence addressable, so
`CanSet` is not modelled separately. -/
inductive RVal where
  | boolV (b : Bool)
  | intV (n : Int)
  | uintV (n : Nat)
  | stringV (s : String)
  | bytesV (bs : List Nat)
  | oidV (o : List Nat)
  | structV (fields : List RVal)
  | mapUIntV (elemIsPtr : Bool) (rowZero : RVal) (entries : Option (List (Nat × RVal)))
  | mapStrV (elemIsPtr : Bool) (rowZero : RVal) (entries : Option (List (String × RVal)))
  | ptrV (w : RVal)
deriving Repr

/-- Go `string(bytes)`: reinterpret the raw bytes as text. -/
def goStringOfBytes (bs : List Nat) : String :=
  String.mk (bs.map Char.ofNat)

/-- Model of `deserializePDUToValue` from the dispatch source.  The result
`some v` is the (possibly unchanged, when only logging happens) target
value; `none` models a Go panic: the boolean coercion hard-fail, the
explicit `panic("Expected []byte ...")` for an `OctetString` into a slice
whose element type is not `uint8`, or a failed payload type assertion. -/
def deserializePDUToValue (tag : SnmpTag) (pv : PduVal) (value : RVal) : Option RVal :=
  match tag with
  | .Integer =>
    match pv with
    | .vInt intVal =>
      match value with
      | .boolV _ =>
        if intVal = 1 then some (.boolV true)
        else if intVal = 2 then some (.boolV false)
        else none
      | .intV _ => some (.intV intVal)
      | _ => some value   -- log: should be {int, int32, int64}
    | _ => none           -- pdu.Value.(int64) / .(int) assertion panics
  | .Counter32 | .Counter64 | .Gauge32 | .TimeTicks | .Uinteger32 =>
    match pv with
    | .vUint uintVal =>
      match value with
      | .boolV _ =>
        if uintVal = 1 then some (.boolV true)
        else if uintVal = 2 then some (.boolV false)
        else none
      | .uintV _ => some (.uintV uintVal)
      | _ => some value   -- log: should be {uint, uint32, uint64}
    | _ => none
  | .OctetString =>
    match pv with
    | .vBytes bytesVal =>
      match value with
      | .bytesV _ => some (.bytesV bytesVal)  -- defensive copy of the buffer
      | .oidV _ => none   -- Kind Slice, element not uint8: explicit panic
      | .stringV _ => some (.stringV (goStringOfBytes bytesVal))
      | _ => some value   -- log: should be string
    | _ => none
  | .ObjectIdentifier =>
    match pv with
    | .vStr s =>
      match value with
      | .stringV _ => some (.stringV s)
      | .oidV _ =>
        match ParseOID s with
        | some oid => some (.oidV oid)
        | none => some value   -- parse failure: leave the field untouched
      | _ => some value        -- log: should be {snmpmagic.OID, string}
    | _ => none
  | .OtherTag => some value    -- log UNHANDLED

/-- Key of a Go map as used by `SetMapIndex`. -/
inductive MapKey where
  | uintK (n : Nat)
  | strK (s : String)
deriving DecidableEq, Repr

/-- Result of `getOrCreateMapElement`: on failure the (possibly created)
map value is still returned, because Go mutates the map in place before
the error paths after creation. -/
inductive GocmRes where
  | failed (updatedMap : RVal)
  | okElem (updatedMap : RVal) (key : MapKey) (elem : RVal) (remainder : List Nat)
deriving Repr

def assocFindNat : List (Nat × RVal) → Nat → Option RVal
  | [], _ => none
  | (k', v) :: rest, k => if k' = k then some v else assocFindNat rest k

def assocSetNat : List (Nat × RVal) → Nat → RVal → List (Nat × RVal)
  | [], k, v => [(k, v)]
  | (k', v') :: rest, k, v =>
      if k' = k then (k, v) :: rest else (k', v') :: assocSetNat rest k v

def assocFindStr : List (String × RVal) → String → Option RVal
  | [], _ => none
  | (k', v) :: rest, k => if k' = k then some v else assocFindStr rest k

def assocSetStr : List (String × RVal) → String → RVal → List (String × RVal)
  | [], k, v => [(k, v)]
  | (k', v') :: rest, k, v =>
      if k' = k then (k, v) :: rest else (k', v') :: assocSetStr rest k v

/-- Write an entry back into a map value at a key (Go's `SetMapIndex`). -/
def mapSetKey (m : RVal) (key : MapKey) (elem : RVal) : RVal :=
  match m, key with
  | .mapUIntV ip z entries, .uintK k =>
      .mapUIntV ip z (some (assocSetNat (entries.getD []) k elem))
  | .mapStrV ip z entries, .strK k =>
      .mapStrV ip z (some (assocSetStr (entries.getD []) k elem))
  | _, _ => m

/-- Model of `getOrCreateMapElement` from the dispatch source: checks the
map shape, creates the map if nil, extracts the key from the last arc of
the path, coerces it to the map's key type, creates the row (a pointer to
a zero record) if absent, and returns the dereferenced element together
with the path minus its last arc. -/
def getOrCreateMapElement (value : RVal) (path : List Nat) : GocmRes :=
  match value with
  | .mapUIntV elemIsPtr rowZero entries =>
    if ¬elemIsPtr then .failed value     -- element must be a struct pointer
    else
      let created := entries.getD []     -- `reflect.MakeMap` when nil
      let value' := RVal.mapUIntV elemIsPtr rowZero (some created)
      if h : path = [] then .failed value'   -- no path elements left
      else
        let mapKey := path.getLast h
        let remainder := path.dropLast
        match assocFindNat created mapKey with
        | some (.ptrV w) => .okElem value' (.uintK mapKey) w remainder
        | some other => .okElem value' (.uintK mapKey) other remainder
        | none =>
          .okElem (RVal.mapUIntV elemIsPtr rowZero
                     (some (assocSetNat created mapKey (.ptrV rowZero))))
            (.uintK mapKey) rowZero remainder
  | .mapStrV elemIsPtr rowZero entries =>
    if ¬elemIsPtr then .failed value
    else
      let created := entries.getD []
      let value' := RVal.mapStrV elemIsPtr rowZero (some created)
      if h : path = [] then .failed value'
      else
        let mapKey := Nat.repr (path.getLast h)   -- `fmt.Sprint(mapKey)`
        let remainder := path.dropLast
        match assocFindStr created mapKey with
        | some (.ptrV w) => .okElem value' (.strK mapKey) w remainder
        | some other => .okElem value' (.strK mapKey) other remainder
        | none =>
          .okElem (RVal.mapStrV elemIsPtr rowZero
                     (some (assocSetStr created mapKey (.ptrV rowZero))))
            (.strK mapKey) rowZero remainder
  | _ => .failed value   -- suffix-catching fields must be a map

/-- Strip the pointer layers at the top of a value
(`for value.Kind() == reflect.Ptr { value = value.Elem() }`). -/
def stripPtr : RVal → RVal
  | .ptrV w => stripPtr w
  | v => v

/-- Rebuild the pointer layers of `orig` around an updated core value. -/
def wrapPtr : RVal → RVal → RVal
  | .ptrV w, core => .ptrV (wrapPtr w core)
  | _, core => core

/-- Outcome of the dispatch loop of `HandlePDU`: `done v` is a normal
return (success, logged-and-skipped PDU, or returned error) with the
updated value, `panicked` a Go panic, `fuelOut` that the loop was still
running after the given number of iterations. -/
inductive DOut where
  | done (v : RVal)
  | panicked
  | fuelOut
deriving Repr

/-- Model of the traversal loop of `SNMPMagic.HandlePDU` (`base.go`):
one unit of fuel is one iteration of the Go `for node != nil` loop.
Each iteration dereferences pointers, steps into the node's field if it
has one, enters (creating on the fly) the map row at a suffix-catcher,
assigns the coerced value at a leaf reached with empty remainder, and
otherwise advances through `FindNext`.  The value returned is the updated
focused value; callers re-wrap it into the enclosing record. -/
def dispatchIter (fuel : Nat) (node : OIDTree) (rem : List Nat)
    (tag : SnmpTag) (pv : PduVal) (value : RVal) : DOut :=
  match fuel with
  | 0 => .fuelOut
  | fuel + 1 =>
    match node with
    | .mk pr cs fi fn nt =>
      let node' := OIDTree.mk pr cs fi fn nt
      -- leaf check, then `node, remainder = node.FindNext(remainder)`
      let stepLeafFind : List Nat → RVal → DOut := fun rem1 focus =>
        if nt = LeafNode ∧ rem1 = [] then
          match deserializePDUToValue tag pv focus with
          | some focus' => .done focus'
          | none => .panicked
        else
          match OIDTree.FindNext node' rem1 with
          | (none, _) => .done focus
          | (some next, rem2) => dispatchIter fuel next rem2 tag pv focus
      -- suffix-catcher handling
      let stepCatch : RVal → DOut := fun focus =>
        if nt = SuffixCatcherNode then
          match getOrCreateMapElement focus rem with
          | .failed m' => .done m'   -- log the error, stop this PDU only
          | .okElem m' key elem rem1 =>
            match stepLeafFind rem1 elem with
            | .done elem' => .done (mapSetKey m' key (.ptrV elem'))
            | x => x
        else stepLeafFind rem focus
      let v0 := stripPtr value
      if 0 ≤ fi then
        match v0 with
        | .structV fs =>
          match fs.get? fi.toNat with
          | some f =>
            match stepCatch f with
            | .done f' => .done (wrapPtr value (.structV (fs.set fi.toNat f')))
            | x => x
          | none => .panicked   -- `value.Field(i)` out of range panics
        | _ => .panicked        -- `value.Field` on a non-struct panics
      else
        match stepCatch v0 with
        | .done v1 => .done (wrapPtr value v1)
        | x => x

/-- Model of `SNMPMagic.HandlePDU`: parse the PDU name (a parse failure is
returned as an error, leaving the record untouched), then run the
traversal loop from the trie root. -/
def HandlePDU (fuel : Nat) (tree : OIDTree) (pduName : String)
    (tag : SnmpTag) (pv : PduVal) (destination : RVal) : DOut :=
  match ParseOID pduName with
  | none => .done destination
  | some path => dispatchIter fuel tree path tag pv destination

/-! ### Schema introspector (`OIDTree.prepare`, `BuildOIDTree`) -/

/-- Reflection view of a Go type as the introspector consumes it: a struct
carries its name and its fields as `(name, snmp tag, type)` triples in
declaration order. -/
inductive GoType where
  | structT (name : String) (fields : List (String × String × GoType))
  | ptrT (elem : GoType)
  | mapUIntT (elem : GoType)
  | mapStrT (elem : GoType)
  | boolT
  | intT
  | uintT
  | stringT
  | bytesT
  | oidT
deriving Repr

mutual

/-- Structural equality of Go types (Go compares `reflect.Type` identity,
which coincides with structural identity for these type expressions). -/
def GoType.beq : GoType → GoType → Bool
  | .structT n1 f1, .structT n2 f2 => n1 = n2 && GoType.beqFields f1 f2
  | .ptrT a, .ptrT b => GoType.beq a b
  | .mapUIntT a, .mapUIntT b => GoType.beq a b
  | .mapStrT a, .mapStrT b => GoType.beq a b
  | .boolT, .boolT => true
  | .intT, .intT => true
  | .uintT, .uintT => true
  | .stringT, .stringT => true
  | .bytesT, .bytesT => true
  | .oidT, .oidT => true
  | _, _ => false

def GoType.beqFields : List (String × String × GoType) → List (String × String × GoType) → Bool
  | [], [] => true
  | (a1, b1, c1) :: r1, (a2, b2, c2) :: r2 =>
      a1 = a2 && b1 = b2 && GoType.beq c1 c2 && GoType.beqFields r1 r2
  | _, _ => false

end

/-- Go `reflect.Type.Name()` for the types the introspector asks it of. -/
def typeName : GoType → String
  | .structT nm _ => nm
  | .ptrT _ => ""
  | .mapUIntT _ => ""
  | .mapStrT _ => ""
  | .boolT => "bool"
  | .intT => "int"
  | .uintT => "uint"
  | .stringT => "string"
  | .bytesT => ""
  | .oidT => "OID"

/-- Go `strings.IndexFunc(name, unicode.IsLower) == 0`: the first
character of the field name is lowercase (the field is unexported). -/
def isUnexported (nm : String) : Bool :=
  match nm.toList with
  | c :: _ => c.isLower
  | [] => false

/-- Outcome of `OIDTree.prepare`: the tree built so far together with the
returned error (the Go method mutates the receiver in place, so a tree is
present even on the error paths), or a panic. -/
inductive PrepRes where
  | res (t : OIDTree) (err : Option String)
  | panicked
deriving Repr

/-- Argument selector for the fuelled `prepareGo`: the body of
`OIDTree.prepare` applied to a type, or its field loop. -/
inductive PrepIn where
  | typ (ty : GoType) (parentName : String)
  | flds (fields : List (String × String × GoType)) (idx : Nat) (parentName : String)

/-- Model of `OIDTree.prepare` from the trie source, with explicit fuel
(one unit per recursive `prepare` call or loop entry; the wrapper
supplies plenty).  The pointer case dereferences, recurses — and
discards the recursive call's error, returning `nil`.  A non-struct,
non-pointer type reaches `t.NumField()`, which panics in Go.  In the
field loop, `idx` is the running `fieldIndex`: an empty `snmp` tag ends
introspection of the whole record; an unexported field is skipped; an
unparseable tag is returned as an error; struct and map fields insert
their node and recurse (the recursive call's error is silently dropped
and the loop continues); any other field inserts a leaf. -/
def prepareGo (fuel : Nat) (t : OIDTree) (inp : PrepIn) (pfx : List Nat) : PrepRes :=
  match fuel with
  | 0 => .panicked   -- unreachable: the wrapper supplies sufficient fuel
  | fuel + 1 =>
    match inp with
    | .typ ty parentName =>
      match ty with
      | .ptrT e =>
        match prepareGo fuel t (.typ e (typeName e)) pfx with
        | .panicked => .panicked
        | .res t' _ => .res t' none   -- error of the recursive call discarded
      | .structT _ fields => prepareGo fuel t (.flds fields 0 parentName) pfx
      | _ => .panicked                -- `NumField` on a non-struct panics
    | .flds fields idx parentName =>
      match fields with
      | [] => .res t none
      | (fname, snmpTag, fty) :: rest =>
        if snmpTag = "" then .res t none
        else if isUnexported fname then
          prepareGo fuel t (.flds rest (idx + 1) parentName) pfx
        else
          match ParseOID snmpTag with
          | none => .res t (some snmpTag)
          | some snmpTagOid =>
            let path := pfx ++ snmpTagOid
            let fieldQualifiedName := parentName ++ "." ++ fname
            match fty with
            | .structT snm sfs =>
              match OIDTree.insertOpt t path (Int.ofNat idx) fieldQualifiedName SimpleNode with
              | none => .panicked
              | some t1 =>
                match prepareGo fuel t1
                    (.typ (.structT snm sfs) (typeName (.structT snm sfs))) path with
                | .panicked => .panicked
                | .res t2 _ => prepareGo fuel t2 (.flds rest (idx + 1) parentName) pfx
            | .mapUIntT elem =>
              match OIDTree.insertOpt t path (Int.ofNat idx) fieldQualifiedName SuffixCatcherNode with
              | none => .panicked
              | some t1 =>
                match prepareGo fuel t1 (.typ elem (typeName elem)) path with
                | .panicked => .panicked
                | .res t2 _ => prepareGo fuel t2 (.flds rest (idx + 1) parentName) pfx
            | .mapStrT elem =>
              match OIDTree.insertOpt t path (Int.ofNat idx) fieldQualifiedName SuffixCatcherNode with
              | none => .panicked
              | some t1 =>
                match prepareGo fuel t1 (.typ elem (typeName elem)) path with
                | .panicked => .panicked
                | .res t2 _ => prepareGo fuel t2 (.flds rest (idx + 1) parentName) pfx
            | _ =>
              match OIDTree.insertOpt t path (Int.ofNat idx) fieldQualifiedName LeafNode with
              | none => .panicked
              | some t1 => prepareGo fuel t1 (.flds rest (idx + 1) parentName) pfx

/-- Model of `OIDTree.prepare` applied to a type; `fuel` bounds the
introspection recursion depth and is irrelevant once it exceeds twice
the number of type nodes. -/
def prepareType (fuel : Nat) (t : OIDTree) (ty : GoType) (pfx : List Nat)
    (parentName : String) : PrepRes :=
  prepareGo fuel t (.typ ty parentName) pfx

/-- Outcome of `BuildOIDTree`. -/
inductive BuildRes where
  | okTree (t : OIDTree)
  | errRes (e : String)
  | panicked
deriving Repr

def cacheFind : List (GoType × OIDTree) → GoType → Option OIDTree
  | [], _ => none
  | (ty', t) :: rest, ty => if GoType.beq ty' ty then some t else cacheFind rest ty

/-- Model of `BuildOIDTree`: consult the process-wide cache keyed by type
identity; on a miss run `prepare` on a fresh tree; cache the tree only
when no error was returned. -/
def BuildOIDTree (fuel : Nat) (cache : List (GoType × OIDTree)) (ty : GoType) :
    List (GoType × OIDTree) × BuildRes :=
  match cacheFind cache ty with
  | some t => (cache, .okTree t)
  | none =>
    match prepareType fuel OIDTree.NewOIDTree ty [] "" with
    | .panicked => (cache, .panicked)
    | .res _ (some e) => (cache, .errRes e)
    | .res t none => (cache ++ [(ty, t)], .okTree t)

/-! ### Walker (`SNMPMagic.Query`, `base.go`) -/

/-- What the transport provides for one BulkWalk root: either an error or
the stream of PDUs (name, tag, payload) it delivers to the callback. -/
structure WalkData where
  rootErr : Option String
  pdus : List (String × SnmpTag × PduVal)

/-- Model of the `gosnmp` client as Query observes it: the result of
`Connect` and, per root OID text, the walk data. -/
structure Client where
  connectErr : Option String
  walkOf : String → WalkData

/-- Model of the `SNMPMagic` struct: the compiled trie, the destination
record and the `isFilled` flag (an `int32` driven by `CompareAndSwap`). -/
structure SNMPMagic where
  oidTree : OIDTree
  destination : RVal
  isFilled : Bool

/-- Result of one `Query` call, with the transport interactions
observable: how many times `Connect` and `Close` ran. -/
inductive QRes where
  | okQ
  | errQ (e : String)
  | panicQ
  | fuelQ
deriving DecidableEq, Repr

structure QueryOutcome where
  magic : SNMPMagic
  result : QRes
  opens : Nat
  closes : Nat

/-- Feed the PDUs of one BulkWalk to `HandlePDU` in order; a PDU whose
name fails to parse makes the callback return an error, which aborts the
walk. -/
def runPDUs (fuel : Nat) (tree : OIDTree) (pdus : List (String × SnmpTag × PduVal))
    (dest : RVal) : QRes × RVal :=
  match pdus with
  | [] => (.okQ, dest)
  | (nm, tag, pv) :: rest =>
    match ParseOID nm with
    | none => (.errQ nm, dest)
    | some path =>
      match dispatchIter fuel tree path tag pv dest with
      | .done dest' => runPDUs fuel tree rest dest'
      | .panicked => (.panicQ, dest)
      | .fuelOut => (.fuelQ, dest)

/-- The BulkWalk loop of `Query`: one walk per prefix path, aborting on
the first error. -/
def runWalks (fuel : Nat) (tree : OIDTree) (client : Client)
    (roots : List (List Nat)) (dest : RVal) : QRes × RVal :=
  match roots with
  | [] => (.okQ, dest)
  | r :: rest =>
    let wd := client.walkOf (OID.String r)
    match wd.rootErr with
    | some e => (.errQ e, dest)
    | none =>
      match runPDUs fuel tree wd.pdus dest with
      | (.okQ, dest') => runWalks fuel tree client rest dest'
      | other => other

/-- Model of `SNMPMagic.Query`: the compare-and-swap on `isFilled` makes a
second call fail with the distinct "already filled" error before any
transport interaction; otherwise the transport is connected, all the
BulkWalk roots of `PrefixPaths` are walked, and the connection close is
deferred (hence runs on every exit path after a successful connect). -/
def Query (self : SNMPMagic) (client : Client) (fuel : Nat) : QueryOutcome :=
  if self.isFilled then
    { magic := self
      result := .errQ "snmpmagic: structure has already been filled"
      opens := 0, closes := 0 }
  else
    let self1 : SNMPMagic := { self with isFilled := true }
    match client.connectErr with
    | some e => { magic := self1, result := .errQ e, opens := 1, closes := 0 }
    | none =>
      let rootOids := OIDTree.PrefixPaths self1.oidTree
      match runWalks fuel self1.oidTree client rootOids self1.destination with
      | (res, dest') =>
        { magic := { self1 with destination := dest' }
          result := res
          opens := 1, closes := 1 }

/-! ### Derived notions used by the statements -/

/-- Numeric value of an all-digit string (what `ParseOID` stores for an
arc). -/
def digitsVal (s : String) : Nat :=
  s.toList.foldl (fun acc c => acc * 10 + (c.toNat - 48)) 0

/-- The canonical form of an OID text, written after the spec's words:
the text with all leading dots stripped and each arc rendered as an
unsigned decimal, joined by single dots.  Declared separately from the
code-side `OID.String`/`ParseOID` so the two can be compared. -/
def canonicalFormSpec (s : String) : String :=
  String.intercalate "."
    (((goSplit '.' s).dropWhile (fun p => p = "")).map (fun p => Nat.repr (digitsVal p)))

namespace OIDTree

/-- All nodes of a trie, each with its absolute path (the concatenation
of the `pre` arcs and child keys above it, including its own `pre`). -/
def spine : OIDTree → List (List Nat × OIDTree)
  | .mk pr cs fi fn nt =>
    (pr, .mk pr cs fi fn nt) ::
      cs.attach.flatMap
        (fun kc => (spine kc.1.2).map (fun q => (pr ++ [kc.1.1] ++ q.1, q.2)))
decreasing_by
  obtain ⟨⟨key, child⟩, hmem⟩ := kc
  simp_wf
  have := List.sizeOf_lt_of_mem hmem
  simp at this
  omega

/-- Selector of the spine nodes that carry a locator (`fieldIndex ≥ 0`):
split-created interior nodes (`fieldIndex = -1`) are not entries. -/
def entrySel (rn : List Nat × OIDTree) : Option Entry :=
  if 0 ≤ rn.2.fieldIndex then
    some (rn.1, rn.2.fieldIndex, rn.2.fieldQualifiedName, rn.2.nodeType)
  else none

/-- The schema entries a trie holds: the absolute path and content of
every locator-carrying node. -/
def entriesOf (t : OIDTree) : List Entry :=
  (spine t).filterMap entrySel

/-- Structural well-formedness of an initialized trie, as maintained by
`Insert`: no node is uninitialized, a leaf has no children, sibling keys
are distinct, and every subtree holds at least one entry. -/
inductive WFT : OIDTree → Prop where
  | node {pr cs fi fn nt} :
      nt ≠ UninitializedNode →
      (nt = LeafNode → cs = []) →
      (cs.map Prod.fst).Nodup →
      (∀ kc ∈ cs, WFT kc.2) →
      entriesOf (.mk pr cs fi fn nt) ≠ [] →
      WFT (.mk pr cs fi fn nt)

/-- Two OID paths are compatible when neither is a prefix of the other
(in particular they are distinct). -/
def PathCompat (p q : List Nat) : Prop := ¬ p <+: q ∧ ¬ q <+: p

/-- A list of schema entries an introspector can produce: pairwise
prefix-incompatible paths, locators that are real field indices, and
node kinds among simple, suffix-catcher and leaf. -/
def GoodEntries (es : List Entry) : Prop :=
  es.Pairwise (fun a b => PathCompat a.1 b.1) ∧
    ∀ e ∈ es, 0 ≤ e.2.1 ∧ e.2.2.2 ≠ UninitializedNode

instance (p q : List Nat) : Decidable (PathCompat p q) := by
  unfold PathCompat
  infer_instance

instance (es : List Entry) : Decidable (GoodEntries es) := by
  unfold GoodEntries
  infer_instance

/-- A trie contains no locator-less interior node whose `pre` is empty
(at such a node `FindNext` maps an empty remainder to the node itself,
and the dispatch loop never leaves it). -/
inductive GoodTrie : OIDTree → Prop where
  | node {pr cs fi fn nt} :
      (pr = [] → fi < 0 → nt = LeafNode ∨ nt = SuffixCatcherNode) →
      (∀ kc ∈ cs, GoodTrie kc.2) →
      GoodTrie (.mk pr cs fi fn nt)

end OIDTree

/-- The dispatch loop runs forever on the given arguments: no amount of
fuel makes it return. -/
def loopsForever (node : OIDTree) (rem : List Nat) (tag : SnmpTag)
    (pv : PduVal) (v : RVal) : Prop :=
  ∀ fuel, dispatchIter fuel node rem tag pv v = .fuelOut

/-- The acceptable-target table of `deserializePDUToValue`: does the
declared kind of the target match the PDU tag? -/
def tagMatchesKind (tag : SnmpTag) (v : RVal) : Bool :=
  match tag, v with
  | .Integer, .boolV _ | .Integer, .intV _ => true
  | .Counter32, .boolV _ | .Counter32, .uintV _ => true
  | .Counter64, .boolV _ | .Counter64, .uintV _ => true
  | .Gauge32, .boolV _ | .Gauge32, .uintV _ => true
  | .TimeTicks, .boolV _ | .TimeTicks, .uintV _ => true
  | .Uinteger32, .boolV _ | .Uinteger32, .uintV _ => true
  | .OctetString, .bytesV _ | .OctetString, .stringV _ => true
  | .ObjectIdentifier, .stringV _ | .ObjectIdentifier, .oidV _ => true
  | _, _ => false

/-- The payload the transport actually delivers for a tag (a mismatch
there makes the Go type assertion panic, which no claim exercises). -/
def wellTypedPayload (tag : SnmpTag) (pv : PduVal) : Bool :=
  match tag, pv with
  | .Integer, .vInt _ => true
  | .Counter32, .vUint _ | .Counter64, .vUint _ | .Gauge32, .vUint _ => true
  | .TimeTicks, .vUint _ | .Uinteger32, .vUint _ => true
  | .OctetString, .vBytes _ => true
  | .ObjectIdentifier, .vStr _ => true
  | .OtherTag, _ => true
  | _, _ => false

/-- Is the target a slice of non-byte elements (`snmpmagic.OID`)?  The
one mismatch `deserializePDUToValue` punishes with a panic instead of a
log. -/
def isNonByteSlice (v : RVal) : Bool :=
  match v with
  | .oidV _ => true
  | _ => false

/-! ### Concrete scenario inputs -/

/-- Row record of the map-population scenario:
`Row { A int (snmp tag 2); B int (snmp tag 3) }`. -/
def c3RowType : GoType := .structT "Row" [("A", "2", .intT), ("B", "3", .intT)]

/-- Top record of the map-population scenario:
`Top { M map[uint]*Row (snmp tag .1.2) }`. -/
def c3TopType : GoType := .structT "Top" [("M", ".1.2", .mapUIntT (.ptrT c3RowType))]

/-- The trie the introspector compiles for `c3TopType`. -/
def c3Tree : OIDTree :=
  .mk [1, 2]
    [(2, .mk [] [] 0 "Row.A" LeafNode), (3, .mk [] [] 1 "Row.B" LeafNode)]
    0 ".M" SuffixCatcherNode

/-- A fresh `*Top` destination: nil map, zero rows. -/
def c3FreshDest : RVal :=
  .ptrV (.structV [.mapUIntV true (.structV [.intV 0, .intV 0]) none])

/-- The destination after the PDU `(.1.2.2.7, Integer 42)`. -/
def c3AfterFirst : RVal :=
  .ptrV (.structV [.mapUIntV true (.structV [.intV 0, .intV 0])
    (some [(7, .ptrV (.structV [.intV 42, .intV 0]))])])

/-- The destination after both PDUs: one row, key 7, A = 42, B = 99. -/
def c3Final : RVal :=
  .ptrV (.structV [.mapUIntV true (.structV [.intV 0, .intV 0])
    (some [(7, .ptrV (.structV [.intV 42, .intV 99]))])])

/-- A record type whose nested record has the unparseable tag `zz`:
`Top2 { A Inner (snmp tag 1) }`, `Inner { X uint (snmp tag zz) }`. -/
def c4BadNested : GoType :=
  .structT "Top2" [("A", "1", .structT "Inner" [("X", "zz", .uintT)])]

/-- The partial trie `prepare` leaves behind for `c4BadNested`: the node
for `A` is inserted, the nested error is dropped. -/
def c4PartialTree : OIDTree := .mk [1] [] 0 ".A" SimpleNode

/-- A record type with the unparseable tag `zz` on a top-level field. -/
def c4TopBad : GoType := .structT "T3" [("X", "zz", .uintT)]

/-- The two leaf schema entries of the trie-split scenario. -/
def c2Entries : List OIDTree.Entry :=
  [([1, 3, 6, 1, 2, 1, 2, 2, 1], 0, ".IfTable", LeafNode),
   ([1, 3, 6, 1, 2, 1, 31, 1, 1, 1], 1, ".IfXTable", LeafNode)]

/-- The trie after inserting the two leaves: a split-created interior
with the common stem and two leaf children. -/
def c2Tree : OIDTree :=
  .mk [1, 3, 6, 1, 2, 1]
    [(2, .mk [2, 1] [] 0 ".IfTable" LeafNode),
     (31, .mk [1, 1, 1] [] 1 ".IfXTable" LeafNode)]
    (-1) "" SimpleNode

/-- Trie of two top-level leaves with tags `1` and `2`: the root split
leaves a locator-less interior with empty `pre` at the root. -/
def c10Tree : OIDTree :=
  .mk []
    [(1, .mk [] [] 0 ".A" LeafNode), (2, .mk [] [] 1 ".B" LeafNode)]
    (-1) "" SimpleNode

/-- The schema entries of a map-plus-leaf scenario: a suffix-catcher at
`.1.2` and a top-level leaf at `.1.3`. -/
def c9Entries : List OIDTree.Entry :=
  [([1, 2], 0, ".M", SuffixCatcherNode), ([1, 3], 1, ".X", LeafNode)]

/-- The trie after inserting `c9Entries`: a split-created interior with
the catcher and the leaf as children. -/
def c9Tree : OIDTree :=
  .mk [1]
    [(2, .mk [] [] 0 ".M" SuffixCatcherNode), (3, .mk [] [] 1 ".X" LeafNode)]
    (-1) "" SimpleNode

/-- The two top-level leaf entries whose insertion splits the root into a
locator-less interior with empty `pre`. -/
def c10Entries : List OIDTree.Entry :=
  [([1], 0, ".A", LeafNode), ([2], 1, ".B", LeafNode)]

/-- The record type behind `c10Entries`: two exported `uint` fields with
tags `1` and `2`. -/
def c10Type : GoType := .structT "T10" [("A", "1", .uintT), ("B", "2", .uintT)]

/-- A fresh destination record for `c10Type`. -/
def c10Dest : RVal := .structV [.uintV 0, .uintV 0]

/-- No duplicates among a list of child keys, as a computation. -/
def OIDTree.nodupB : List Nat → Bool
  | [] => true
  | k :: rest => decide (k ∉ rest) && OIDTree.nodupB rest

mutual

/-- Does the subtree hold at least one locator-carrying node?  The
computable counterpart of `entriesOf · ≠ []`. -/
def OIDTree.hasEntryB : OIDTree → Bool
  | .mk _ cs fi _ _ => decide (0 ≤ fi) || OIDTree.hasEntryAnyB cs

/-- `hasEntryB` over a children list. -/
def OIDTree.hasEntryAnyB : List (Nat × OIDTree) → Bool
  | [] => false
  | (_, c) :: rest => OIDTree.hasEntryB c || OIDTree.hasEntryAnyB rest

end

mutual

/-- Computable structural well-formedness: the node-by-node checks of
`WFT`, so that a concrete trie can be certified by evaluation. -/
def OIDTree.WFTb : OIDTree → Bool
  | .mk pr cs fi fn nt =>
      decide (nt ≠ UninitializedNode) &&
      (decide (nt ≠ LeafNode) || cs.isEmpty) &&
      OIDTree.nodupB (cs.map Prod.fst) &&
      OIDTree.hasEntryB (.mk pr cs fi fn nt) &&
      OIDTree.WFTbAll cs

/-- `WFTb` over a children list. -/
def OIDTree.WFTbAll : List (Nat × OIDTree) → Bool
  | [] => true
  | (_, c) :: rest => OIDTree.WFTb c && OIDTree.WFTbAll rest

end

/-! ### Theorems -/

open OIDTree

/-- C3: with the schema of one `uint`-keyed mapping `M` at prefix `.1.2`
whose row record has leaf `A` at relative OID `2` and leaf `B` at
relative OID `3`, dispatching `(.1.2.2.7, Integer 42)` and then
`(.1.2.3.7, Integer 99)` into a fresh record creates on the fly a single
row at key 7 (taken from the last arc of the remaining OID) with
`M[7].A = 42` and `M[7].B = 99`, and no other rows. -/
theorem C3_map_row_population :
    (BuildOIDTree 20 [] c3TopType).2 = .okTree c3Tree ∧
    HandlePDU 20 c3Tree ".1.2.2.7" .Integer (.vInt 42) c3FreshDest = .done c3AfterFirst ∧
    HandlePDU 20 c3Tree ".1.2.3.7" .Integer (.vInt 99) c3AfterFirst = .done c3Final := by
  exact ⟨rfl, rfl, rfl⟩

/-- C4: the claim says a schema error anywhere (any nesting depth) is
returned by `new` and nothing is cached; the code instead drops the
error of the recursive `prepare` calls, so `BuildOIDTree` on a record
whose nested record carries the unparseable tag `zz` succeeds and caches
a partial trie, while the same tag on a top-level field is returned with
nothing cached. -/
theorem C4_nested_schema_error_swallowed :
    BuildOIDTree 20 [] c4BadNested = ([(c4BadNested, c4PartialTree)], .okTree c4PartialTree) ∧
    BuildOIDTree 20 [] c4TopBad = ([], .errRes "zz") := by
  exact ⟨rfl, rfl⟩

/-- C5 counterexample: an `OctetString` PDU dispatched into a field that
is a slice whose element type is not a byte (the claim's own example)
does not log and return — value coercion panics, and the dispatch of
such a PDU dies with it. -/
theorem C5_counterexample :
    deserializePDUToValue .OctetString (.vBytes [104, 105]) (.oidV []) = none ∧
    dispatchIter 2 (.mk [1] [] 0 ".F" LeafNode) [1] .OctetString (.vBytes [104, 105])
      (.structV [.oidV []]) = .panicked := by
  exact ⟨rfl, rfl⟩

/-- C5 amended: a tag/field type mismatch makes value coercion log and
return normally without assigning — except an `OctetString` into a slice
of non-byte elements, which panics (the counterexample); all other
mismatches, such as an `Integer` PDU into a string field, leave the
value untouched. -/
theorem C5_mismatch_logged (tag : SnmpTag) (pv : PduVal) (v : RVal)
    (hw : wellTypedPayload tag pv = true)
    (hm : tagMatchesKind tag v = false)
    (hx : ¬(tag = .OctetString ∧ isNonByteSlice v = true)) :
    deserializePDUToValue tag pv v = some v := by
  cases tag <;> cases pv <;> cases v <;>
    simp_all [wellTypedPayload, tagMatchesKind, isNonByteSlice, deserializePDUToValue]

/-- C5 witness: an `Integer` PDU into a string field is a mismatch and is
left untouched. -/
theorem C5_mismatch_logged_witness :
    deserializePDUToValue .Integer (.vInt 5) (.stringV "x") = some (.stringV "x") :=
  C5_mismatch_logged .Integer (.vInt 5) (.stringV "x") rfl rfl (by simp)

/-- C7: an `Integer` (or any unsigned-tag) PDU dispatched into a boolean
field sets `true` on payload 1, `false` on payload 2, and value coercion
hard-fails (panics) on any other payload. -/
theorem C7_boolean_coercion :
    ∀ (n : Int) (m : Nat) (b : Bool),
      deserializePDUToValue .Integer (.vInt n) (.boolV b) =
        (if n = 1 then some (.boolV true) else if n = 2 then some (.boolV false) else none) ∧
      deserializePDUToValue .Counter32 (.vUint m) (.boolV b) =
        (if m = 1 then some (.boolV true) else if m = 2 then some (.boolV false) else none) ∧
      deserializePDUToValue .Counter64 (.vUint m) (.boolV b) =
        (if m = 1 then some (.boolV true) else if m = 2 then some (.boolV false) else none) ∧
      deserializePDUToValue .Gauge32 (.vUint m) (.boolV b) =
        (if m = 1 then some (.boolV true) else if m = 2 then some (.boolV false) else none) ∧
      deserializePDUToValue .TimeTicks (.vUint m) (.boolV b) =
        (if m = 1 then some (.boolV true) else if m = 2 then some (.boolV false) else none) ∧
      deserializePDUToValue .Uinteger32 (.vUint m) (.boolV b) =
        (if m = 1 then some (.boolV true) else if m = 2 then some (.boolV false) else none) := by
  intro n m b
  refine ⟨?_, ?_, ?_, ?_, ?_, ?_⟩ <;> simp [deserializePDUToValue]

theorem parseUint64_digits {s : String} {v : Nat}
    (h : parseUint64 s = some v) : v = digitsVal s := by
  simp only [parseUint64] at h
  split at h
  · exact Option.noConfusion h
  · split at h
    · split at h
      · simp only [Option.some.injEq] at h
        simp [← h, digitsVal]
      · exact Option.noConfusion h
    · exact Option.noConfusion h

theorem parseArcs_digits :
    ∀ (ps : List String) (o : List Nat),
      parseArcs ps = some o → o = ps.map digitsVal := by
  intro ps
  induction ps with
  | nil =>
    intro o h
    simp [parseArcs] at h
    simp [h.symm]
  | cons p rest ih =>
    intro o h
    simp only [parseArcs] at h
    cases hv : parseUint64 p with
    | none => simp [hv] at h
    | some v =>
      cases hl : parseArcs rest with
      | none => simp [hv, hl] at h
      | some l =>
        simp [hv, hl] at h
        subst h
        simp [parseUint64_digits hv, ih l hl]

/-- C8: on every text the parser accepts, formatting the parse result
yields the canonical form of the text — all leading dots stripped and
each arc rendered as an unsigned decimal, joined by single dots; in
particular `.1.3.6.1.2.1` parses to `[1,3,6,1,2,1]` and formats back to
`1.3.6.1.2.1`. -/
theorem C8_parse_format_roundtrip :
    (∀ (s : String) (o : OID), ParseOID s = some o → OID.String o = canonicalFormSpec s) ∧
    ParseOID ".1.3.6.1.2.1" = some [1, 3, 6, 1, 2, 1] ∧
    OID.String [1, 3, 6, 1, 2, 1] = "1.3.6.1.2.1" := by
  refine ⟨?_, rfl, rfl⟩
  intro s o h
  simp only [ParseOID] at h
  have ho := parseArcs_digits _ _ h
  subst ho
  simp [OID.String, canonicalFormSpec, List.map_map]
  rfl

/-- C8 witness: the round-trip theorem applied to the scenario input. -/
theorem C8_parse_format_roundtrip_witness :
    OID.String [1, 3, 6, 1, 2, 1] = canonicalFormSpec ".1.3.6.1.2.1" :=
  C8_parse_format_roundtrip.1 ".1.3.6.1.2.1" [1, 3, 6, 1, 2, 1] rfl

/-- C6: on a fresh walker the first `Query` proceeds to open the
transport (exactly one `Connect`), and a second `Query` on the same
instance returns the distinct "already filled" error without touching
the transport (no `Connect`, no `Close`) and without modifying the
walker state or its record; hence the transport is opened at most once
across the two calls. -/
theorem C6_query_one_shot (m : SNMPMagic) (c1 c2 : Client) (f1 f2 : Nat)
    (h : m.isFilled = false) :
    (Query m c1 f1).opens = 1 ∧
    (Query (Query m c1 f1).magic c2 f2).result =
      .errQ "snmpmagic: structure has already been filled" ∧
    (Query (Query m c1 f1).magic c2 f2).opens = 0 ∧
    (Query (Query m c1 f1).magic c2 f2).closes = 0 ∧
    (Query (Query m c1 f1).magic c2 f2).magic = (Query m c1 f1).magic := by
  have h1 : (Query m c1 f1).magic.isFilled = true ∧ (Query m c1 f1).opens = 1 := by
    unfold Query
    simp only [h, Bool.false_eq_true, if_false]
    cases hc : c1.connectErr with
    | some e => simp
    | none =>
      cases hw : runWalks f1 m.oidTree c1 (OIDTree.PrefixPaths m.oidTree) m.destination with
      | mk res dest' => simp
  have h2 : Query (Query m c1 f1).magic c2 f2 =
      { magic := (Query m c1 f1).magic
        result := .errQ "snmpmagic: structure has already been filled"
        opens := 0, closes := 0 } := by
    generalize (Query m c1 f1).magic = m1 at h1 ⊢
    unfold Query
    simp [h1.1]
  exact ⟨h1.2, by simp [h2], by simp [h2], by simp [h2], by simp [h2]⟩

/-- C6 witness: the one-shot theorem applied to a concrete fresh walker
and a concrete client. -/
theorem C6_query_one_shot_witness :
    (Query ⟨c3Tree, c3FreshDest, false⟩
        ⟨none, fun _ => ⟨none, []⟩⟩ 5).opens = 1 ∧
    (Query (Query ⟨c3Tree, c3FreshDest, false⟩ ⟨none, fun _ => ⟨none, []⟩⟩ 5).magic
        ⟨none, fun _ => ⟨none, []⟩⟩ 5).result =
      .errQ "snmpmagic: structure has already been filled" :=
  ⟨(C6_query_one_shot ⟨c3Tree, c3FreshDest, false⟩
      ⟨none, fun _ => ⟨none, []⟩⟩ ⟨none, fun _ => ⟨none, []⟩⟩ 5 5 rfl).1,
   (C6_query_one_shot ⟨c3Tree, c3FreshDest, false⟩
      ⟨none, fun _ => ⟨none, []⟩⟩ ⟨none, fun _ => ⟨none, []⟩⟩ 5 5 rfl).2.1⟩

/-- C1 counterexample: the paths `[1]` and `[1, 2]` are distinct, yet
inserting the two leaf entries in this order panics
("cannot insert node under a leaf"), so the walk cannot end at a node
without a panic during the insertions, contrary to the claim's
"for every order". -/
theorem C1_counterexample :
    insertAllOpt NewOIDTree [([1], 0, ".A", LeafNode), ([1, 2], 1, ".B", LeafNode)] = none ∧
    ([1] : List Nat) ≠ [1, 2] := ⟨rfl, by decide⟩

/-- C2 counterexample: inserting the two leaf entries of the trie-split
scenario succeeds, but `PrefixPaths` returns the empty list — not the
two inserted paths — because a leaf contributes no path; in particular
no returned path is a prefix of the inserted path `.1.3.6.1.2.1.2.2.1`. -/
theorem C2_counterexample :
    insertAllOpt NewOIDTree c2Entries = some c2Tree ∧
    PrefixPaths c2Tree = [] := by
  exact ⟨rfl, by simp [PrefixPaths, c2Tree]⟩

/-! ### Longest-common-prefix arithmetic -/

theorem lcp_append (p r : List Nat) :
    OID.LongestCommonPrefixLength p (p ++ r) = p.length := by
  induction p with
  | nil => cases r <;> simp [OID.LongestCommonPrefixLength]
  | cons a as_ ih => simp [OID.LongestCommonPrefixLength, ih]

theorem lcp_le_left (p q : List Nat) :
    OID.LongestCommonPrefixLength p q ≤ p.length := by
  induction p generalizing q with
  | nil => cases q <;> simp [OID.LongestCommonPrefixLength]
  | cons a as_ ih =>
    cases q with
    | nil => simp [OID.LongestCommonPrefixLength]
    | cons b bs =>
      by_cases hab : a = b <;> simp [OID.LongestCommonPrefixLength, hab]
      exact ih bs

theorem lcp_le_right (p q : List Nat) :
    OID.LongestCommonPrefixLength p q ≤ q.length := by
  induction p generalizing q with
  | nil => cases q <;> simp [OID.LongestCommonPrefixLength]
  | cons a as_ ih =>
    cases q with
    | nil => simp [OID.LongestCommonPrefixLength]
    | cons b bs =>
      by_cases hab : a = b <;> simp [OID.LongestCommonPrefixLength, hab]
      exact ih bs

theorem lcp_eq_left_iff {p q : List Nat} :
    OID.LongestCommonPrefixLength p q = p.length ↔ p <+: q := by
  constructor
  · intro h
    induction p generalizing q with
    | nil => exact List.nil_prefix
    | cons a as_ ih =>
      cases q with
      | nil => simp [OID.LongestCommonPrefixLength] at h
      | cons b bs =>
        by_cases hab : a = b
        · subst hab
          simp [OID.LongestCommonPrefixLength] at h
          exact List.cons_prefix_cons.2 ⟨rfl, ih h⟩
        · simp [OID.LongestCommonPrefixLength, hab] at h
  · rintro ⟨r, rfl⟩
    exact lcp_append p r

theorem lcp_take (p q : List Nat) :
    p.take (OID.LongestCommonPrefixLength p q) = q.take (OID.LongestCommonPrefixLength p q) := by
  induction p generalizing q with
  | nil => cases q <;> simp [OID.LongestCommonPrefixLength]
  | cons a as_ ih =>
    cases q with
    | nil => simp [OID.LongestCommonPrefixLength]
    | cons b bs =>
      by_cases hab : a = b <;> simp [OID.LongestCommonPrefixLength, hab]
      exact ih bs

theorem lcp_get_ne {p q : List Nat}
    (h1 : OID.LongestCommonPrefixLength p q < p.length)
    (h2 : OID.LongestCommonPrefixLength p q < q.length) :
    p.getD (OID.LongestCommonPrefixLength p q) 0 ≠
      q.getD (OID.LongestCommonPrefixLength p q) 0 := by
  induction p generalizing q with
  | nil => simp at h1
  | cons a as_ ih =>
    cases q with
    | nil => simp at h2
    | cons b bs =>
      by_cases hab : a = b
      · subst hab
        have he : OID.LongestCommonPrefixLength (a :: as_) (a :: bs) =
            OID.LongestCommonPrefixLength as_ bs + 1 := by
          simp [OID.LongestCommonPrefixLength]
        rw [he] at h1 h2 ⊢
        rw [List.getD_cons_succ, List.getD_cons_succ]
        exact ih (by simpa using h1) (by simpa using h2)
      · have he : OID.LongestCommonPrefixLength (a :: as_) (b :: bs) = 0 := by
          simp [OID.LongestCommonPrefixLength, hab]
        rw [he]
        simpa using hab

/-! ### Children association-list lemmas -/

namespace OIDTree

theorem findChild_eq_none_iff {cs : List (Nat × OIDTree)} {k : Nat} :
    findChild cs k = none ↔ k ∉ cs.map Prod.fst := by
  induction cs with
  | nil => simp [findChild]
  | cons hd tl ih =>
    obtain ⟨k', c'⟩ := hd
    by_cases hk : k' = k
    · subst hk
      simp [findChild]
    · simp [findChild, hk, ih]
      intro h
      exact fun h2 => hk h2.symm

theorem findChild_of_mem {cs : List (Nat × OIDTree)} {k : Nat} {c : OIDTree}
    (hn : (cs.map Prod.fst).Nodup) (hm : (k, c) ∈ cs) :
    findChild cs k = some c := by
  induction cs with
  | nil => cases hm
  | cons hd tl ih =>
    obtain ⟨k', c'⟩ := hd
    rw [List.map_cons] at hn
    have hn1 := (List.nodup_cons.1 hn).1
    have hn2 := (List.nodup_cons.1 hn).2
    rcases List.mem_cons.1 hm with h | h
    · rw [Prod.mk.injEq] at h
      obtain ⟨h1, h2⟩ := h
      subst h1
      subst h2
      simp [findChild]
    · have hkmem : k ∈ tl.map Prod.fst := List.mem_map.2 ⟨(k, c), h, rfl⟩
      have hk : k' ≠ k := fun he => hn1 (he ▸ hkmem)
      simp only [findChild, hk, if_false]
      exact ih hn2 h

theorem findChild_decomp {cs : List (Nat × OIDTree)} {k : Nat} {c : OIDTree}
    (h : findChild cs k = some c) :
    ∃ l1 l2, cs = l1 ++ (k, c) :: l2 ∧ k ∉ l1.map Prod.fst ∧
      ∀ c', setChild cs k c' = l1 ++ (k, c') :: l2 := by
  induction cs with
  | nil => simp [findChild] at h
  | cons hd tl ih =>
    obtain ⟨k', c''⟩ := hd
    by_cases hk : k' = k
    · subst hk
      simp [findChild] at h
      subst h
      exact ⟨[], tl, by simp, by simp, fun c' => by simp [setChild]⟩
    · simp [findChild, hk] at h
      obtain ⟨l1, l2, he, hnk, hset⟩ := ih h
      refine ⟨(k', c'') :: l1, l2, by simp [he], ?_, fun c' => by simp [setChild, hk, hset c']⟩
      simp only [List.map_cons, List.mem_cons, not_or]
      exact ⟨fun hkk => hk hkk.symm, hnk⟩

end OIDTree

/-! ### Spine and entries unfolding -/

theorem attach_flatMap {α β : Type} (l : List α) (g : α → List β) :
    l.attach.flatMap (fun kc => g kc.1) = l.flatMap g := by
  rw [@List.flatMap_subtype _ _ _ _ _ g (fun x h => rfl), List.unattach_attach]

namespace OIDTree

theorem spine_mk (pr : List Nat) (cs : List (Nat × OIDTree)) (fi : Int)
    (fn : String) (nt : OIDNodeType) :
    spine (.mk pr cs fi fn nt) =
      (pr, .mk pr cs fi fn nt) ::
        cs.flatMap (fun kc => (spine kc.2).map (fun q => (pr ++ [kc.1] ++ q.1, q.2))) := by
  rw [spine]
  rw [attach_flatMap cs (fun kc => (spine kc.2).map (fun q => (pr ++ [kc.1] ++ q.1, q.2)))]

theorem entrySel_lift (pr : List Nat) (k : Nat) (q : List Nat × OIDTree) :
    entrySel (pr ++ [k] ++ q.1, q.2) =
      (entrySel q).map (fun e => (pr ++ [k] ++ e.1, e.2)) := by
  by_cases h : 0 ≤ q.2.fieldIndex <;> simp [entrySel, h]

theorem entriesOf_mk (pr : List Nat) (cs : List (Nat × OIDTree)) (fi : Int)
    (fn : String) (nt : OIDNodeType) :
    entriesOf (.mk pr cs fi fn nt) =
      (if 0 ≤ fi then [(pr, fi, fn, nt)] else []) ++
        cs.flatMap (fun kc => (entriesOf kc.2).map (fun e => (pr ++ [kc.1] ++ e.1, e.2))) := by
  have htl : List.filterMap entrySel
        (cs.flatMap (fun kc => (spine kc.2).map (fun q => (pr ++ [kc.1] ++ q.1, q.2)))) =
      cs.flatMap (fun kc => (entriesOf kc.2).map (fun e => (pr ++ [kc.1] ++ e.1, e.2))) := by
    induction cs with
    | nil => simp
    | cons hd tl ih =>
      simp only [List.flatMap_cons, List.filterMap_append, ih]
      congr 1
      unfold entriesOf
      rw [List.filterMap_map, List.map_filterMap]
      apply List.filterMap_congr
      intro q _
      exact entrySel_lift pr hd.1 q
  have hhd : entrySel (pr, OIDTree.mk pr cs fi fn nt) =
      if 0 ≤ fi then some (pr, fi, fn, nt) else none := by
    unfold entrySel
    simp [fieldIndex, fieldQualifiedName, nodeType]
  unfold entriesOf
  rw [spine_mk, List.filterMap_cons, hhd]
  by_cases hfi : 0 ≤ fi
  · rw [if_pos hfi, if_pos hfi]
    simpa using htl
  · rw [if_neg hfi, if_neg hfi]
    simpa using htl

end OIDTree

end Snmpmagic

/-! ### Walking finds every spine node -/

namespace Snmpmagic

theorem lcp_self (p : List Nat) : OID.LongestCommonPrefixLength p p = p.length := by
  have := lcp_append p []
  simpa using this

namespace OIDTree

theorem entries_start {pr : List Nat} {cs : List (Nat × OIDTree)} {fi : Int}
    {fn : String} {nt : OIDNodeType} :
    ∀ e ∈ entriesOf (.mk pr cs fi fn nt), pr <+: e.1 := by
  intro e he
  rw [entriesOf_mk] at he
  rcases List.mem_append.1 he with h | h
  · split at h
    · rcases List.mem_singleton.1 h with rfl
      exact List.prefix_refl pr
    · cases h
  · obtain ⟨kc, hkc, hq⟩ := List.mem_flatMap.1 h
    obtain ⟨q, hqs, he2⟩ := List.mem_map.1 hq
    rw [← he2]
    exact ⟨[kc.1] ++ q.1, by simp⟩

theorem entriesOf_ne_nil_iff {pr : List Nat} {cs : List (Nat × OIDTree)} {fi : Int}
    {fn : String} {nt : OIDNodeType} :
    entriesOf (.mk pr cs fi fn nt) ≠ [] ↔
      (0 ≤ fi ∨ ∃ kc ∈ cs, entriesOf kc.2 ≠ []) := by
  rw [entriesOf_mk]
  by_cases hfi : 0 ≤ fi
  · simp [hfi]
  · simp [hfi, List.flatMap_eq_nil_iff, List.map_eq_nil_iff]

theorem walkFind_of_mem_spine {t : OIDTree} (hw : WFT t) :
    ∀ r n, (r, n) ∈ spine t → walkFind t r = some n := by
  induction hw with
  | @node pr cs fi fn nt h1 h2 h3 h4 h5 ih =>
    intro r n hm
    rw [spine_mk] at hm
    rcases List.mem_cons.1 hm with h | h
    · rw [Prod.mk.injEq] at h
      obtain ⟨he1, he2⟩ := h
      subst he1
      subst he2
      simp [walkFind, lcp_self]
    · obtain ⟨kc, hkc, hq⟩ := List.mem_flatMap.1 h
      obtain ⟨q, hqs, he2⟩ := List.mem_map.1 hq
      rw [Prod.mk.injEq] at he2
      obtain ⟨he1, he3⟩ := he2
      subst he1
      subst he3
      have hr : pr ++ [kc.1] ++ q.1 = pr ++ ([kc.1] ++ q.1) := by simp
      have hlcp : OID.LongestCommonPrefixLength pr (pr ++ [kc.1] ++ q.1) = pr.length := by
        rw [hr]
        exact lcp_append pr _
      have hdrop : (pr ++ [kc.1] ++ q.1).drop pr.length = kc.1 :: q.1 := by
        rw [hr]
        simp [List.drop_left]
      have hfc : findChild cs kc.1 = some kc.2 := findChild_of_mem h3 (by simpa using hkc)
      rw [walkFind]
      simp only [hlcp, hdrop]
      rw [if_neg (by simp)]
      split
      · rename_i child hchild
        rw [hfc] at hchild
        injection hchild with hh
        subst hh
        exact ih kc hkc q.1 q.2 hqs
      · rename_i hchild
        rw [hfc] at hchild
        cases hchild

end OIDTree

end Snmpmagic

/-! ### More prefix arithmetic and entry algebra -/

namespace Snmpmagic

theorem lcp_comm (p q : List Nat) :
    OID.LongestCommonPrefixLength p q = OID.LongestCommonPrefixLength q p := by
  induction p generalizing q with
  | nil => cases q <;> simp [OID.LongestCommonPrefixLength]
  | cons a as_ ih =>
    cases q with
    | nil => simp [OID.LongestCommonPrefixLength]
    | cons b bs =>
      by_cases hab : a = b
      · subst hab
        simp [OID.LongestCommonPrefixLength, ih]
      · have hba : ¬b = a := fun h => hab h.symm
        simp [OID.LongestCommonPrefixLength, hab, hba]

theorem take_getD_drop {l : List Nat} {c : Nat} (h : c < l.length) :
    l.take c ++ l.getD c 0 :: l.drop (c + 1) = l := by
  induction l generalizing c with
  | nil => simp at h
  | cons a as_ ih =>
    cases c with
    | zero => simp
    | succ c' =>
      simp only [List.take_succ_cons, List.getD_cons_succ, List.drop_succ_cons,
        List.cons_append, List.cons.injEq, true_and]
      exact ih (by simpa using h)

namespace OIDTree

theorem PathCompat_append {x a b : List Nat} :
    PathCompat (x ++ a) (x ++ b) ↔ PathCompat a b := by
  unfold PathCompat
  rw [List.prefix_append_right_inj, List.prefix_append_right_inj]

theorem entry_lift_mem {pr : List Nat} {cs : List (Nat × OIDTree)} {fi : Int}
    {fn : String} {nt : OIDNodeType} {kc : Nat × OIDTree} {e : Entry}
    (hkc : kc ∈ cs) (he : e ∈ entriesOf kc.2) :
    (pr ++ [kc.1] ++ e.1, e.2) ∈ entriesOf (.mk pr cs fi fn nt) := by
  rw [entriesOf_mk]
  refine List.mem_append.2 (Or.inr ?_)
  exact List.mem_flatMap.2 ⟨kc, hkc, List.mem_map.2 ⟨e, he, rfl⟩⟩

theorem entriesOf_reroot (p : List Nat) (cs : List (Nat × OIDTree)) (fi : Int)
    (fn : String) (nt : OIDNodeType) :
    entriesOf (.mk p cs fi fn nt) =
      (entriesOf (.mk [] cs fi fn nt)).map (fun e => (p ++ e.1, e.2)) := by
  rw [entriesOf_mk, entriesOf_mk, List.map_append]
  congr 1
  · split <;> simp
  · rw [List.map_flatMap]
    apply List.flatMap_congr
    intro kc _
    rw [List.map_map]
    apply List.map_congr_left
    intro e _
    simp

end OIDTree

end Snmpmagic


namespace Snmpmagic

namespace OIDTree

theorem drop_getD_cons {l : List Nat} {c : Nat} (h : c < l.length) :
    l.drop c = l.getD c 0 :: l.drop (c + 1) := by
  have h2 := take_getD_drop h
  have hlen : (l.take c).length = c := by
    simp [List.length_take]
    omega
  nth_rewrite 1 [← h2]
  rw [List.drop_append_of_le_length (le_of_eq hlen.symm)]
  rw [List.drop_eq_nil_of_le (le_of_eq hlen)]
  rfl

theorem own_entry_mem {pr : List Nat} {cs : List (Nat × OIDTree)} {fi : Int}
    {fn : String} {nt : OIDNodeType} (hfi : 0 ≤ fi) :
    ((pr, fi, fn, nt) : Entry) ∈ entriesOf (.mk pr cs fi fn nt) := by
  rw [entriesOf_mk, if_pos hfi]
  exact List.mem_append_left _ (List.mem_singleton_self _)

theorem perm_plug {α : Type} (A B C C0 D : List α) (x : α) (h : C.Perm (x :: C0)) :
    (A ++ (B ++ (C ++ D))).Perm (x :: (A ++ (B ++ (C0 ++ D)))) := by
  have h1 : (C ++ D).Perm (x :: (C0 ++ D)) := by
    simpa using h.append_right D
  have h2 : (B ++ (C ++ D)).Perm (x :: (B ++ (C0 ++ D))) :=
    (List.Perm.append_left B h1).trans List.perm_middle
  exact (List.Perm.append_left A h2).trans List.perm_middle

theorem perm_update {pr cp : List Nat} {cs l1 l2 : List (Nat × OIDTree)}
    {key : Nat} {child child' : OIDTree} {fi : Int} {fn : String}
    {nt : OIDNodeType} {e : Int × String × OIDNodeType}
    (hcs : cs = l1 ++ (key, child) :: l2)
    (hperm : (entriesOf child').Perm ((cp, e) :: entriesOf child)) :
    (entriesOf (.mk pr (l1 ++ (key, child') :: l2) fi fn nt)).Perm
      ((pr ++ [key] ++ cp, e) :: entriesOf (.mk pr cs fi fn nt)) := by
  subst hcs
  rw [entriesOf_mk, entriesOf_mk]
  rw [List.flatMap_append, List.flatMap_append, List.flatMap_cons, List.flatMap_cons]
  exact perm_plug _ _ _ _ _ _ (hperm.map _)

theorem perm_append_new {pr cp : List Nat} {cs : List (Nat × OIDTree)}
    {key : Nat} {fi i : Int} {fn nm : String} {nt k : OIDNodeType}
    (hi : 0 ≤ i) :
    (entriesOf (.mk pr (cs ++ [(key, .mk cp [] i nm k)]) fi fn nt)).Perm
      ((pr ++ [key] ++ cp, i, nm, k) :: entriesOf (.mk pr cs fi fn nt)) := by
  rw [entriesOf_mk, entriesOf_mk, List.flatMap_append]
  have hnew : entriesOf (OIDTree.mk cp [] i nm k) = [(cp, i, nm, k)] := by
    rw [entriesOf_mk, if_pos hi]
    simp
  simp only [List.flatMap_cons, List.flatMap_nil, hnew, List.map_cons, List.map_nil,
    List.append_nil]
  have h1 : ∀ (E F : List Entry) (x : Entry), (E ++ (F ++ [x])).Perm (x :: (E ++ F)) := by
    intro E F x
    have := @List.perm_middle _ x (E ++ F) []
    simpa [List.append_assoc] using this
  exact h1 _ _ _

end OIDTree

end Snmpmagic

namespace Snmpmagic

namespace OIDTree

theorem perm_split {pr path : List Nat} {cs : List (Nat × OIDTree)} {fi i : Int}
    {fn nm : String} {nt k : OIDNodeType} {c : Nat}
    (h1 : c < pr.length) (h2 : c < path.length)
    (htake : pr.take c = path.take c) (hi : 0 ≤ i) :
    (entriesOf (.mk (pr.take c)
        [(pr.getD c 0, .mk (pr.drop (c + 1)) cs fi fn nt),
         (path.getD c 0, .mk (path.drop (c + 1)) [] i nm k)]
        (-1) "" SimpleNode)).Perm
      ((path, i, nm, k) :: entriesOf (.mk pr cs fi fn nt)) := by
  rw [entriesOf_mk]
  rw [if_neg (by decide)]
  simp only [List.flatMap_cons, List.flatMap_nil, List.append_nil, List.nil_append]
  have hnew : entriesOf (OIDTree.mk (path.drop (c + 1)) [] i nm k) =
      [(path.drop (c + 1), i, nm, k)] := by
    rw [entriesOf_mk, if_pos hi]
    simp
  rw [hnew]
  have hmoved : (entriesOf (OIDTree.mk (pr.drop (c + 1)) cs fi fn nt)).map
      (fun e => (pr.take c ++ [pr.getD c 0] ++ e.1, e.2)) =
      entriesOf (.mk pr cs fi fn nt) := by
    rw [entriesOf_reroot (pr.drop (c + 1)), entriesOf_reroot pr, List.map_map]
    apply List.map_congr_left
    intro e _
    simp only [Function.comp_apply, Prod.mk.injEq, and_true]
    have hpr : List.take c pr ++ [pr.getD c 0] ++ List.drop (c + 1) pr = pr := by
      rw [List.append_assoc, List.singleton_append]
      exact take_getD_drop h1
    rw [← List.append_assoc, hpr]
  rw [hmoved]
  have hpath : pr.take c ++ [path.getD c 0] ++ path.drop (c + 1) = path := by
    rw [htake, List.append_assoc, List.singleton_append, take_getD_drop h2]
  simp only [List.map_cons, List.map_nil, hpath]
  exact List.perm_append_singleton _ _

theorem perm_ne_nil {l l2 : List Entry} {x : Entry} (h : l.Perm (x :: l2)) : l ≠ [] := by
  intro he
  subst he
  have := h.length_eq
  simp at this

end OIDTree

end Snmpmagic

namespace Snmpmagic

namespace OIDTree

theorem insertGo_step (fuel : Nat) :
    ∀ (t : OIDTree) (path : List Nat) (i : Int) (nm : String) (k : OIDNodeType),
      path.length < fuel → WFT t → 0 ≤ i → k ≠ UninitializedNode →
      (∀ e ∈ entriesOf t, PathCompat path e.1) →
      ∃ t', insertGo fuel t path i nm k = some t' ∧ WFT t' ∧
        (entriesOf t').Perm ((path, i, nm, k) :: entriesOf t) := by
  induction fuel with
  | zero =>
    intro t path i nm k hf
    omega
  | succ fuel ih =>
    intro t path i nm k hf hw hi hk hcomp
    cases hw with
    | @node pr cs fi fn nt h1 h2 h3 h4 h5 =>
    have hstarts := @entries_start pr cs fi fn nt
    have hnpp : ¬ path <+: pr := by
      intro hp
      obtain ⟨e, he⟩ := List.exists_mem_of_ne_nil _ h5
      exact (hcomp e he).1 (hp.trans (hstarts e he))
    have hclen : OID.LongestCommonPrefixLength pr path ≠ path.length := by
      intro hcl
      apply hnpp
      apply lcp_eq_left_iff.1
      rw [lcp_comm]
      exact hcl
    have hclt : OID.LongestCommonPrefixLength pr path < path.length :=
      lt_of_le_of_ne (lcp_le_right pr path) hclen
    rw [insertGo]
    rw [if_neg h1]
    by_cases hcpr : OID.LongestCommonPrefixLength pr path = pr.length
    · -- the path extends this node: insert into / create a child
      rw [if_pos ⟨hcpr, hclt⟩]
      have hpp : pr <+: path := lcp_eq_left_iff.1 hcpr
      obtain ⟨rest, hrest⟩ := hpp
      have hdrop : path.drop (OID.LongestCommonPrefixLength pr path) = rest := by
        rw [hcpr, ← hrest, List.drop_left]
      cases rest with
      | nil =>
        exfalso
        rw [← hrest] at hclt hcpr
        simp only [List.append_nil] at hclt hcpr
        omega
      | cons key childPath =>
        rw [hdrop, createOrUpdateChildGo]
        have hpath2 : path = (pr ++ [key]) ++ childPath := by
          rw [← hrest]
          simp
        cases hfc : findChild cs key with
        | some child =>
          have hmem := findChild_mem hfc
          have hwchild : WFT child := h4 _ hmem
          have hcompchild : ∀ e ∈ entriesOf child, PathCompat childPath e.1 := by
            intro e he
            have hml := @entry_lift_mem pr cs fi fn nt (key, child) e hmem he
            have hc2 := hcomp _ hml
            rw [hpath2] at hc2
            exact PathCompat_append.1 hc2
          have hlen2 : childPath.length < fuel := by
            have hll : path.length = pr.length + (childPath.length + 1) := by
              rw [← hrest]
              simp
            omega
          obtain ⟨child', hins, hwc', hperm⟩ :=
            ih child childPath i nm k hlen2 hwchild hi hk hcompchild
          simp only [hins]
          obtain ⟨l1, l2, hcs, hkeyl1, hset⟩ := findChild_decomp hfc
          rw [hset child']
          have hperm' := @perm_update pr childPath cs l1 l2 key child child' fi fn nt
            (i, nm, k) hcs hperm
          rw [show pr ++ [key] ++ childPath = path from by rw [hpath2]] at hperm'
          refine ⟨_, rfl, ?_, hperm'⟩
          constructor
          · exact h1
          · intro hl
            exfalso
            rw [h2 hl] at hcs
            simp at hcs
          · have hkeys : (l1 ++ (key, child') :: l2).map Prod.fst = cs.map Prod.fst := by
              rw [hcs]
              simp
            rw [hkeys]
            exact h3
          · intro kc hkc2
            rcases List.mem_append.1 hkc2 with hL | hR
            · exact h4 _ (by rw [hcs]; exact List.mem_append_left _ hL)
            · rcases List.mem_cons.1 hR with heq | hR2
              · rw [heq]
                exact hwc'
              · exact h4 _ (by
                  rw [hcs]
                  exact List.mem_append_right _ (List.mem_cons_of_mem _ hR2))
          · exact perm_ne_nil hperm'
        | none =>
          have hpp2 : pr <+: path := ⟨key :: childPath, hrest⟩
          have hnl : nt ≠ LeafNode := by
            intro hl
            have hcs0 := h2 hl
            subst hcs0
            have hfi : 0 ≤ fi := by
              rcases entriesOf_ne_nil_iff.1 h5 with h | ⟨kc, hkc, _⟩
              · exact h
              · cases hkc
            have hownm := @own_entry_mem pr [] fi fn nt hfi
            exact (hcomp _ hownm).2 hpp2
          rw [if_neg hnl]
          have hperm2 := @perm_append_new pr childPath cs key fi i fn nm nt k hi
          rw [show pr ++ [key] ++ childPath = path from by rw [hpath2]] at hperm2
          refine ⟨_, rfl, ?_, hperm2⟩
          constructor
          · exact h1
          · intro hl
            exact absurd hl hnl
          · rw [List.map_append]
            simp only [List.map_cons, List.map_nil]
            rw [List.nodup_append]
            refine ⟨h3, List.nodup_singleton _, ?_⟩
            intro a ha hb
            rw [List.mem_singleton] at hb
            subst hb
            exact (findChild_eq_none_iff.1 hfc) ha
          · intro kc hkc2
            rcases List.mem_append.1 hkc2 with hL | hR
            · exact h4 _ hL
            · rw [List.mem_singleton] at hR
              rw [hR]
              constructor
              · exact hk
              · intro _
                rfl
              · exact List.nodup_nil
              · intro kc2 hkc3
                cases hkc3
              · rw [entriesOf_ne_nil_iff]
                exact Or.inl hi
          · exact perm_ne_nil hperm2
    · -- genuine split
      have hclt2 : OID.LongestCommonPrefixLength pr path < pr.length :=
        lt_of_le_of_ne (lcp_le_left pr path) hcpr
      rw [if_neg (fun hand => hcpr hand.1)]
      rw [if_neg (fun hand => hclen hand.1)]
      simp only [hclen, if_false]
      rw [drop_getD_cons hclt, createOrUpdateChildGo]
      have hne := lcp_get_ne hclt2 hclt
      simp only [findChild]
      rw [if_neg hne]
      rw [if_neg (by decide : ¬ (SimpleNode = LeafNode))]
      have hpermS := @perm_split pr path cs fi i fn nm nt k
        (OID.LongestCommonPrefixLength pr path) hclt2 hclt (lcp_take pr path) hi
      refine ⟨_, rfl, ?_, hpermS⟩
      constructor
      · intro hx
        cases hx
      · intro hx
        cases hx
      · refine List.nodup_cons.2 ⟨?_, List.nodup_singleton _⟩
        intro hm
        simp at hm
        exact absurd hm (by simpa using hne)
      · intro kc hkc
        rcases List.mem_cons.1 hkc with heq | hR
        · rw [heq]
          constructor
          · exact h1
          · exact h2
          · exact h3
          · exact h4
          · rw [entriesOf_ne_nil_iff]
            exact entriesOf_ne_nil_iff.1 h5
        · rcases List.mem_cons.1 hR with heq2 | hR2
          · rw [heq2]
            constructor
            · exact hk
            · intro _
              rfl
            · exact List.nodup_nil
            · intro kc2 hkc3
              cases hkc3
            · rw [entriesOf_ne_nil_iff]
              exact Or.inl hi
          · cases hR2
      · exact perm_ne_nil hpermS

end OIDTree

end Snmpmagic

namespace Snmpmagic

namespace OIDTree

theorem PathCompat_symm {a b : List Nat} (h : PathCompat a b) : PathCompat b a :=
  ⟨h.2, h.1⟩

theorem walkFind_entry {t : OIDTree} (hw : WFT t) {e : Entry} (he : e ∈ entriesOf t) :
    ∃ n, walkFind t e.1 = some n ∧ n.fieldIndex = e.2.1 ∧
      n.fieldQualifiedName = e.2.2.1 ∧ n.nodeType = e.2.2.2 := by
  obtain ⟨rn, hrn, hsel⟩ := List.mem_filterMap.1 he
  unfold entrySel at hsel
  split at hsel
  · rw [Option.some.injEq] at hsel
    refine ⟨rn.2, ?_, ?_, ?_, ?_⟩
    · have hmem : (rn.1, rn.2) ∈ spine t := by simpa using hrn
      have := walkFind_of_mem_spine hw rn.1 rn.2 hmem
      rw [← hsel]
      exact this
    · rw [← hsel]
    · rw [← hsel]
    · rw [← hsel]
  · cases hsel

theorem insertAllOpt_good :
    ∀ (es : List Entry) (t : OIDTree),
      WFT t →
      (∀ e ∈ es, 0 ≤ e.2.1 ∧ e.2.2.2 ≠ UninitializedNode) →
      es.Pairwise (fun a b => PathCompat a.1 b.1) →
      (∀ e ∈ es, ∀ e' ∈ entriesOf t, PathCompat e.1 e'.1) →
      ∃ t', insertAllOpt t es = some t' ∧ WFT t' ∧
        (entriesOf t').Perm (es ++ entriesOf t) := by
  intro es
  induction es with
  | nil =>
    intro t hw _ _ _
    exact ⟨t, rfl, hw, by simp⟩
  | cons e rest ih =>
    intro t hw hgood hpw hcomp
    obtain ⟨p, i, nm, k⟩ := e
    have hstep := insertGo_step (p.length + 1) t p i nm k (by omega) hw
      (hgood _ (List.mem_cons_self _ _)).1 (hgood _ (List.mem_cons_self _ _)).2
      (fun e' he' => hcomp _ (List.mem_cons_self _ _) e' he')
    obtain ⟨t1, hins, hw1, hperm1⟩ := hstep
    rw [insertAllOpt]
    rw [show insertOpt t p i nm k = some t1 from hins]
    have hcomp1 : ∀ e' ∈ rest, ∀ q ∈ entriesOf t1, PathCompat e'.1 q.1 := by
      intro e' he' q hq
      rw [hperm1.mem_iff] at hq
      rcases List.mem_cons.1 hq with heq | hmem
      · subst heq
        exact PathCompat_symm ((List.pairwise_cons.1 hpw).1 e' he')
      · exact hcomp e' (List.mem_cons_of_mem _ he') q hmem
    obtain ⟨t', hall, hw', hperm'⟩ := ih t1 hw1
      (fun e' he' => hgood e' (List.mem_cons_of_mem _ he'))
      (List.pairwise_cons.1 hpw).2 hcomp1
    refine ⟨t', hall, hw', ?_⟩
    exact (hperm'.trans (List.Perm.append_left rest hperm1)).trans List.perm_middle

theorem insertAll_entries (es : List Entry) (hgood : GoodEntries es) :
    ∃ t, insertAllOpt NewOIDTree es = some t ∧
      ((es = [] ∧ t = NewOIDTree) ∨ (WFT t ∧ (entriesOf t).Perm es)) := by
  obtain ⟨hpw, hge⟩ := hgood
  cases es with
  | nil => exact ⟨NewOIDTree, rfl, Or.inl ⟨rfl, rfl⟩⟩
  | cons e rest =>
    obtain ⟨p, i, nm, k⟩ := e
    have hi := (hge _ (List.mem_cons_self _ _)).1
    have hk := (hge _ (List.mem_cons_self _ _)).2
    have hadopt : insertOpt NewOIDTree p i nm k = some (.mk p [] i nm k) := rfl
    have hent : entriesOf (.mk p [] i nm k) = [(p, i, nm, k)] := by
      rw [entriesOf_mk, if_pos hi]
      simp
    have hw0 : WFT (.mk p [] i nm k) := by
      constructor
      · exact hk
      · intro _
        rfl
      · exact List.nodup_nil
      · intro kc hkc
        cases hkc
      · rw [hent]
        simp
    rw [insertAllOpt, hadopt]
    have hcomp0 : ∀ e' ∈ rest, ∀ q ∈ entriesOf (.mk p [] i nm k), PathCompat e'.1 q.1 := by
      intro e' he' q hq
      rw [hent, List.mem_singleton] at hq
      subst hq
      exact PathCompat_symm ((List.pairwise_cons.1 hpw).1 e' he')
    obtain ⟨t', hall, hw', hperm'⟩ := insertAllOpt_good rest (.mk p [] i nm k) hw0
      (fun e' he' => hge e' (List.mem_cons_of_mem _ he'))
      (List.pairwise_cons.1 hpw).2 hcomp0
    refine ⟨t', hall, Or.inr ⟨hw', ?_⟩⟩
    refine hperm'.trans ?_
    rw [hent]
    exact List.perm_append_singleton _ _

end OIDTree

end Snmpmagic

namespace Snmpmagic

namespace OIDTree

/-- C1 (amended): for every finite set of schema entries whose paths are
pairwise prefix-incompatible (the counterexample shows this is needed:
distinct paths alone admit an order that panics), inserted in any order
into a fresh trie, every insertion succeeds without panic and walking
each entry path arc-by-arc through `FindNext` from the root ends, with
empty remainder, at a node carrying that entry's locator and kind. -/
theorem C1_trie_insert_correct (es : List Entry) (hgood : GoodEntries es) :
    ∃ t, insertAllOpt NewOIDTree es = some t ∧
      ∀ e ∈ es, ∃ n, walkFind t e.1 = some n ∧
        n.fieldIndex = e.2.1 ∧ n.fieldQualifiedName = e.2.2.1 ∧ n.nodeType = e.2.2.2 := by
  obtain ⟨t, hall, hres⟩ := insertAll_entries es hgood
  refine ⟨t, hall, ?_⟩
  rcases hres with ⟨hnil, _⟩ | ⟨hw, hperm⟩
  · subst hnil
    intro e he
    cases he
  · intro e he
    exact walkFind_entry hw (hperm.mem_iff.2 he)

/-- C1 witness: the amended theorem applied to the two concrete leaf
entries of the trie-split scenario. -/
theorem C1_trie_insert_correct_witness :
    ∃ t, insertAllOpt NewOIDTree c2Entries = some t ∧
      ∀ e ∈ c2Entries, ∃ n, walkFind t e.1 = some n ∧
        n.fieldIndex = e.2.1 ∧ n.fieldQualifiedName = e.2.2.1 ∧ n.nodeType = e.2.2.2 :=
  C1_trie_insert_correct c2Entries (by decide)

end OIDTree

end Snmpmagic

namespace Snmpmagic

namespace OIDTree

theorem prefixPaths_mk (pr : List Nat) (cs : List (Nat × OIDTree)) (fi : Int)
    (fn : String) (nt : OIDNodeType) :
    PrefixPaths (.mk pr cs fi fn nt) =
      if nt = LeafNode then []
      else if nt = SuffixCatcherNode then [pr]
      else cs.flatMap (fun kc => (PrefixPaths kc.2).map (fun p => pr ++ [kc.1] ++ p)) := by
  rw [PrefixPaths]
  by_cases hl : nt = LeafNode
  · rw [if_pos hl, if_pos hl]
  · rw [if_neg hl, if_neg hl]
    by_cases hs : nt = SuffixCatcherNode
    · rw [if_pos hs, if_pos hs]
    · rw [if_neg hs, if_neg hs]
      exact @attach_flatMap _ (List Nat) cs
        (fun kc => (PrefixPaths kc.2).map (fun p => pr ++ [kc.1] ++ p))

theorem walkFind_self (pr : List Nat) (cs : List (Nat × OIDTree)) (fi : Int)
    (fn : String) (nt : OIDNodeType) :
    walkFind (.mk pr cs fi fn nt) pr = some (.mk pr cs fi fn nt) := by
  simp [walkFind, lcp_self]

theorem walkFind_child_step {pr : List Nat} {cs : List (Nat × OIDTree)} {fi : Int}
    {fn : String} {nt : OIDNodeType} {key : Nat} {child : OIDTree} (q : List Nat)
    (hn : (cs.map Prod.fst).Nodup) (hmem : (key, child) ∈ cs) :
    walkFind (.mk pr cs fi fn nt) (pr ++ [key] ++ q) = walkFind child q := by
  have hr : pr ++ [key] ++ q = pr ++ ([key] ++ q) := by simp
  have hlcp : OID.LongestCommonPrefixLength pr (pr ++ [key] ++ q) = pr.length := by
    rw [hr]
    exact lcp_append pr _
  have hdrop : (pr ++ [key] ++ q).drop pr.length = key :: q := by
    rw [hr]
    simp [List.drop_left]
  have hfc : findChild cs key = some child := findChild_of_mem hn hmem
  rw [walkFind]
  simp only [hlcp, hdrop]
  rw [if_neg (by simp)]
  split
  · rename_i c hc
    rw [hfc] at hc
    injection hc with hh
    rw [hh]
  · rename_i hc
    rw [hfc] at hc
    cases hc

theorem walkFind_cons (pr : List Nat) (cs : List (Nat × OIDTree)) (fi : Int)
    (fn : String) (nt : OIDNodeType) (key : Nat) (rest : List Nat) :
    walkFind (.mk pr cs fi fn nt) (pr ++ key :: rest) =
      (findChild cs key).bind (fun child => walkFind child rest) := by
  have hlcp : OID.LongestCommonPrefixLength pr (pr ++ key :: rest) = pr.length :=
    lcp_append pr _
  have hdrop : (pr ++ key :: rest).drop pr.length = key :: rest := List.drop_left _ _
  rw [walkFind]
  simp only [hlcp, hdrop]
  rw [if_neg (by simp)]
  split
  · rename_i c hc
    rw [hc]
    rfl
  · rename_i hc
    rw [hc]
    rfl

theorem walkFind_inv {pr : List Nat} {cs : List (Nat × OIDTree)} {fi : Int}
    {fn : String} {nt : OIDNodeType} {r : List Nat} {n : OIDTree}
    (h : walkFind (.mk pr cs fi fn nt) r = some n) :
    (r = pr ∧ n = .mk pr cs fi fn nt) ∨
      ∃ key rest child, r = pr ++ key :: rest ∧ findChild cs key = some child ∧
        walkFind child rest = some n := by
  by_cases hc : OID.LongestCommonPrefixLength pr r = pr.length
  · have hpp : pr <+: r := lcp_eq_left_iff.1 hc
    obtain ⟨rest0, hr0⟩ := hpp
    cases rest0 with
    | nil =>
      left
      rw [← hr0] at h ⊢
      rw [List.append_nil] at h ⊢
      rw [walkFind_self, Option.some.injEq] at h
      exact ⟨rfl, h.symm⟩
    | cons key rest =>
      right
      rw [← hr0, walkFind_cons] at h
      cases hfc : findChild cs key with
      | some child =>
        rw [hfc, Option.some_bind] at h
        exact ⟨key, rest, child, hr0.symm, hfc, h⟩
      | none =>
        rw [hfc, Option.none_bind] at h
        cases h
  · rw [walkFind, if_pos hc] at h
    cases h

theorem prefixPaths_cover {t : OIDTree} (hw : WFT t) :
    ∀ p n, walkFind t p = some n → n.nodeType = SuffixCatcherNode →
      ∃ q ∈ PrefixPaths t, q <+: p := by
  induction hw with
  | @node pr cs fi fn nt h1 h2 h3 h4 h5 ih =>
    intro p n hwf hcat
    rw [prefixPaths_mk]
    rcases walkFind_inv hwf with ⟨hp, hn⟩ | ⟨key, rest, child, hp, hfc, hwalk⟩
    · subst hp
      subst hn
      simp only [nodeType] at hcat
      rw [if_neg (by rw [hcat]; decide), if_pos hcat]
      exact ⟨p, List.mem_singleton_self _, List.prefix_refl _⟩
    · subst hp
      by_cases hl : nt = LeafNode
      · exfalso
        rw [h2 hl] at hfc
        cases hfc
      · by_cases hs : nt = SuffixCatcherNode
        · rw [if_neg hl, if_pos hs]
          exact ⟨pr, List.mem_singleton_self _, ⟨key :: rest, rfl⟩⟩
        · rw [if_neg hl, if_neg hs]
          have hmem := findChild_mem hfc
          obtain ⟨q', hq', hqp⟩ := ih _ hmem rest n hwalk hcat
          refine ⟨pr ++ [key] ++ q', ?_, ?_⟩
          · exact List.mem_flatMap.2 ⟨(key, child), hmem, List.mem_map.2 ⟨q', hq', rfl⟩⟩
          · have : pr ++ [key] ++ q' <+: pr ++ [key] ++ rest :=
              (List.prefix_append_right_inj _).2 hqp
            simpa using this

end OIDTree

end Snmpmagic

namespace Snmpmagic

namespace OIDTree

theorem prefixPaths_are_catchers {t : OIDTree} (hw : WFT t) :
    ∀ q ∈ PrefixPaths t, ∃ n, walkFind t q = some n ∧ n.nodeType = SuffixCatcherNode := by
  induction hw with
  | @node pr cs fi fn nt h1 h2 h3 h4 h5 ih =>
    intro q hq
    rw [prefixPaths_mk] at hq
    by_cases hl : nt = LeafNode
    · rw [if_pos hl] at hq
      cases hq
    · rw [if_neg hl] at hq
      by_cases hs : nt = SuffixCatcherNode
      · rw [if_pos hs, List.mem_singleton] at hq
        subst hq
        exact ⟨_, walkFind_self _ cs fi fn nt, hs⟩
      · rw [if_neg hs] at hq
        obtain ⟨⟨key, child⟩, hmem, hq'⟩ := List.mem_flatMap.1 hq
        obtain ⟨q2, hq2, rfl⟩ := List.mem_map.1 hq'
        obtain ⟨n, hn, hcat⟩ := ih _ hmem q2 hq2
        exact ⟨n, by rw [walkFind_child_step q2 h3 hmem]; exact hn, hcat⟩

theorem prefixPaths_no_descend {t : OIDTree} (hw : WFT t) :
    ∀ q ∈ PrefixPaths t, ∀ r n, walkFind t r = some n →
      n.nodeType = SuffixCatcherNode → r <+: q → r = q := by
  induction hw with
  | @node pr cs fi fn nt h1 h2 h3 h4 h5 ih =>
    intro q hq r n hwf hcat hpre
    rw [prefixPaths_mk] at hq
    by_cases hl : nt = LeafNode
    · rw [if_pos hl] at hq
      cases hq
    · rw [if_neg hl] at hq
      by_cases hs : nt = SuffixCatcherNode
      · rw [if_pos hs, List.mem_singleton] at hq
        subst hq
        rcases walkFind_inv hwf with ⟨hr, _⟩ | ⟨key, rest, child, hr, _, _⟩
        · exact hr
        · exfalso
          have hlen := hpre.length_le
          rw [hr] at hlen
          simp at hlen
      · rw [if_neg hs] at hq
        obtain ⟨⟨key, child⟩, hmem, hq'⟩ := List.mem_flatMap.1 hq
        obtain ⟨q2, hq2, rfl⟩ := List.mem_map.1 hq'
        rcases walkFind_inv hwf with ⟨hr, hn⟩ | ⟨key', rest, child', hr, hfc', hwalk'⟩
        · exfalso
          subst hn
          simp only [nodeType] at hcat
          exact hs hcat
        · subst hr
          have hpre' : key' :: rest <+: [key] ++ q2 := by
            have : pr ++ key' :: rest <+: pr ++ ([key] ++ q2) := by
              simpa [List.append_assoc] using hpre
            exact (List.prefix_append_right_inj pr).1 this
          rw [List.singleton_append, List.cons_prefix_cons] at hpre'
          obtain ⟨hkey, hrest⟩ := hpre'
          subst hkey
          have hfc : findChild cs key' = some child := findChild_of_mem h3 hmem
          rw [hfc] at hfc'
          injection hfc' with hc
          subst hc
          have := ih _ hmem q2 hq2 rest n hwalk' hcat hrest
          rw [this]
          simp

theorem nodup_child_paths (pr : List Nat) :
    ∀ (cs : List (Nat × OIDTree)), (cs.map Prod.fst).Nodup →
      (∀ kc ∈ cs, (PrefixPaths kc.2).Nodup) →
      (cs.flatMap (fun kc => (PrefixPaths kc.2).map (fun p => pr ++ [kc.1] ++ p))).Nodup := by
  intro cs
  induction cs with
  | nil =>
    intro _ _
    simp
  | cons kc rest ih =>
    intro hn hall
    obtain ⟨key, child⟩ := kc
    rw [List.flatMap_cons]
    refine List.Nodup.append ?_ ?_ ?_
    · refine List.Nodup.map ?_ (hall _ (List.mem_cons_self _ _))
      intro a b hab
      have : pr ++ key :: a = pr ++ key :: b := by simpa [List.append_assoc] using hab
      have := List.append_cancel_left this
      injection this
    · exact ih (List.nodup_cons.1 hn).2 (fun kc h => hall kc (List.mem_cons_of_mem _ h))
    · intro x hx1 hx2
      obtain ⟨q1, _, rfl⟩ := List.mem_map.1 hx1
      obtain ⟨⟨key2, child2⟩, hmem2, hx2⟩ := List.mem_flatMap.1 hx2
      obtain ⟨q2, _, heq⟩ := List.mem_map.1 hx2
      have : pr ++ key2 :: q2 = pr ++ key :: q1 := by simpa [List.append_assoc] using heq
      have := List.append_cancel_left this
      injection this with hk _
      have hkeys : key ∈ rest.map Prod.fst := by
        rw [← hk]
        exact List.mem_map.2 ⟨(key2, child2), hmem2, rfl⟩
      exact (List.nodup_cons.1 hn).1 hkeys

theorem prefixPaths_nodup {t : OIDTree} (hw : WFT t) : (PrefixPaths t).Nodup := by
  induction hw with
  | @node pr cs fi fn nt h1 h2 h3 h4 h5 ih =>
    rw [prefixPaths_mk]
    by_cases hl : nt = LeafNode
    · rw [if_pos hl]
      exact List.nodup_nil
    · rw [if_neg hl]
      by_cases hs : nt = SuffixCatcherNode
      · rw [if_pos hs]
        simp
      · rw [if_neg hs]
        exact nodup_child_paths pr cs h3 ih

end OIDTree

namespace OIDTree

theorem nodupB_sound : ∀ l : List Nat, nodupB l = true → l.Nodup
  | [], _ => List.nodup_nil
  | k :: rest, h => by
    rw [nodupB, Bool.and_eq_true] at h
    exact List.nodup_cons.2 ⟨of_decide_eq_true h.1, nodupB_sound rest h.2⟩

theorem hasEntryAnyB_mem : ∀ cs : List (Nat × OIDTree), hasEntryAnyB cs = true →
    ∃ kc ∈ cs, hasEntryB kc.2 = true
  | [], h => by rw [hasEntryAnyB] at h; cases h
  | (k, c) :: rest, h => by
    rw [hasEntryAnyB, Bool.or_eq_true] at h
    rcases h with h | h
    · exact ⟨(k, c), List.mem_cons_self _ _, h⟩
    · obtain ⟨kc, hkc, hc⟩ := hasEntryAnyB_mem rest h
      exact ⟨kc, List.mem_cons_of_mem _ hkc, hc⟩

theorem hasEntryB_sound : ∀ t : OIDTree, hasEntryB t = true → entriesOf t ≠ []
  | .mk pr cs fi fn nt, h => by
    rw [hasEntryB, Bool.or_eq_true] at h
    rw [entriesOf_ne_nil_iff]
    rcases h with h | h
    · exact Or.inl (of_decide_eq_true h)
    · obtain ⟨kc, hkc, hc⟩ := hasEntryAnyB_mem cs h
      obtain ⟨k, c⟩ := kc
      exact Or.inr ⟨(k, c), hkc, hasEntryB_sound c hc⟩
termination_by t => sizeOf t
decreasing_by
  have := List.sizeOf_lt_of_mem hkc
  simp at this ⊢
  omega

theorem WFTbAll_mem : ∀ cs : List (Nat × OIDTree), WFTbAll cs = true →
    ∀ kc ∈ cs, WFTb kc.2 = true
  | [], _ => fun kc hkc => absurd hkc (List.not_mem_nil kc)
  | (k, c) :: rest, h => by
    rw [WFTbAll, Bool.and_eq_true] at h
    intro kc hkc
    rcases List.mem_cons.1 hkc with heq | hmem
    · subst heq
      exact h.1
    · exact WFTbAll_mem rest h.2 kc hmem

theorem WFT_of_WFTb : ∀ t : OIDTree, WFTb t = true → WFT t
  | .mk pr cs fi fn nt, h => by
    rw [WFTb] at h
    simp only [Bool.and_eq_true] at h
    obtain ⟨⟨⟨⟨h1, h2⟩, h3⟩, h4⟩, h5⟩ := h
    refine WFT.node (of_decide_eq_true h1) ?_ (nodupB_sound _ h3) ?_ (hasEntryB_sound _ h4)
    · intro hleaf
      rw [Bool.or_eq_true] at h2
      rcases h2 with h2 | h2
      · exact absurd hleaf (of_decide_eq_true h2)
      · exact List.isEmpty_iff.1 h2
    · intro kc hkc
      obtain ⟨k, c⟩ := kc
      exact WFT_of_WFTb c (WFTbAll_mem cs h5 (k, c) hkc)
termination_by t => sizeOf t
decreasing_by
  have := List.sizeOf_lt_of_mem hkc
  simp at this ⊢
  omega

/-- C2 (amended): in every well-formed trie (as `Insert` maintains: no
uninitialized node, leaves childless, sibling keys distinct, every
subtree holding an entry), every path with a prefix that the walk
resolves to a suffix-catcher node — so every suffix-catcher entry's
path, and every entry or PDU path below one — has a prefix among the
walk roots returned by `PrefixPaths`.  The counterexample refutes the
claim's universal coverage: leaf entries outside any catcher are
covered by nothing, and the claimed concrete output is wrong. -/
theorem C2_prefix_paths_cover {t : OIDTree} (hw : WFT t) :
    ∀ p r n, r <+: p → walkFind t r = some n → n.nodeType = SuffixCatcherNode →
      ∃ q ∈ PrefixPaths t, q <+: p := by
  intro p r n hpre hwf hcat
  obtain ⟨q, hq, hqr⟩ := prefixPaths_cover hw r n hwf hcat
  exact ⟨q, hq, hqr.trans hpre⟩

/-- C2 witness: in the map trie of the `c3` schema — a suffix-catcher at
`[1, 2]` with the row leaves below it — the row entry path `[1, 2, 2]`
is covered by a returned walk root. -/
theorem C2_prefix_paths_cover_witness :
    ∃ q ∈ PrefixPaths c3Tree, q <+: [1, 2, 2] :=
  C2_prefix_paths_cover (WFT_of_WFTb c3Tree (by decide)) [1, 2, 2] [1, 2] c3Tree
    (by decide) (walkFind_self [1, 2] _ 0 ".M" SuffixCatcherNode) rfl

/-- C9: in every well-formed trie, every path returned by `PrefixPaths`
is the absolute path of a suffix-catcher node, no returned path lies
strictly inside a suffix-catcher's subtree (a catcher path that is a
prefix of a returned path equals it), and the returned paths are
pairwise distinct — one walk root per map subtree. -/
theorem C9_prefix_paths_map_coverage {t : OIDTree} (hw : WFT t) :
    (∀ q ∈ PrefixPaths t, ∃ n, walkFind t q = some n ∧ n.nodeType = SuffixCatcherNode) ∧
    (∀ q ∈ PrefixPaths t, ∀ r n, walkFind t r = some n →
      n.nodeType = SuffixCatcherNode → r <+: q → r = q) ∧
    (PrefixPaths t).Nodup :=
  ⟨prefixPaths_are_catchers hw, prefixPaths_no_descend hw, prefixPaths_nodup hw⟩

/-- C9 witness: the `c3` map trie, whose suffix-catcher at `[1, 2]` has
the row leaves as children; its only walk root is the catcher's own
path, and the roots are distinct. -/
theorem C9_prefix_paths_map_coverage_witness :
    (∃ n, walkFind c3Tree [1, 2] = some n ∧ n.nodeType = SuffixCatcherNode) ∧
    (PrefixPaths c3Tree).Nodup :=
  ⟨(C9_prefix_paths_map_coverage (WFT_of_WFTb c3Tree (by decide))).1 [1, 2]
      (by simp [PrefixPaths, c3Tree]),
   (C9_prefix_paths_map_coverage (WFT_of_WFTb c3Tree (by decide))).2.2⟩

end OIDTree

/-- C10: the dispatch loop does not always terminate.  The introspector,
given a record of two leaf fields at OIDs `1` and `2`, splits the root
into a locator-less interior node with empty `pre`; on a PDU whose OID
parses to the empty path, `FindNext` returns that same node with empty
remainder and the loop never advances: no amount of fuel makes
`HandlePDU` return. -/
theorem C10_dispatch_loop_diverges :
    (BuildOIDTree 20 [] c10Type).2 = .okTree c10Tree ∧
    OIDTree.insertAllOpt OIDTree.NewOIDTree c10Entries = some c10Tree ∧
    ParseOID "" = some [] ∧
    loopsForever c10Tree [] .Integer (.vInt 1) c10Dest ∧
    ∀ fuel, HandlePDU fuel c10Tree "" .Integer (.vInt 1) c10Dest = .fuelOut := by
  have step : ∀ n, dispatchIter (n + 1) c10Tree [] .Integer (.vInt 1) c10Dest =
      match dispatchIter n c10Tree [] .Integer (.vInt 1) c10Dest with
      | .done v1 => .done v1
      | x => x := fun n => rfl
  have hloop : loopsForever c10Tree [] .Integer (.vInt 1) c10Dest := by
    intro fuel
    induction fuel with
    | zero => rfl
    | succ n ih => rw [step n, ih]
  exact ⟨rfl, rfl, rfl, hloop, fun fuel => hloop fuel⟩

end Snmpmagic
